import Mathlib

/-!
Verification of the streaming swing-detection engine of the MacOSTennisAgent
repository (`backend/app/services/swing_detector.py` and `backend/app/main.py`).

Floating-point values (timestamps, rotation magnitudes, thresholds) are
modelled as rationals; all the verified logic is comparison- and
arithmetic-based, never bit-level.  The Euclidean-norm computation of the
derived magnitudes (`np.sqrt(x**2 + ...)`) is not modelled: a sample carries
its derived magnitudes directly, which is the only way the detection code
consumes them.

The detector calls `scipy.signal.find_peaks(magnitudes, height=threshold,
distance=min_distance)`.  That library call is embedded faithfully below from
scipy's `_peak_finding.py` / `_peak_finding_utils.pyx`:
`_local_maxima_1d` (plateau midpoints), the `height` filter
(`keep = hmin <= peak_heights`), and `_select_by_peak_distance`
(descending-priority kill loop).  `np.argsort` over the priorities is
modelled as a stable sort, i.e. as returning the indices in ascending
(priority, index) lexicographic order.
-/

namespace TennisAgent

/- Rational arithmetic is `@[irreducible]` upstream; re-allow unfolding in
this file so that concrete detector runs can be evaluated by `decide`. -/
attribute [local semireducible] Rat.sub Rat.add Rat.mul Rat.inv

/-- One timestamped IMU reading, carrying its derived magnitudes
(`swing_detector.py`, class `SensorSample`).  Only the fields the detection
logic reads are modelled. -/
structure SensorSample where
  timestamp : ℚ
  rotationMagnitude : ℚ
  accelerationMagnitude : ℚ
  deriving DecidableEq, Repr

/-- A detected swing peak (`swing_detector.py`, class `SwingPeak`). -/
structure SwingPeak where
  timestamp : ℚ
  peakIndex : ℕ
  rotationMagnitude : ℚ
  accelerationMagnitude : ℚ
  sensorData : SensorSample
  deriving DecidableEq, Repr

/-! ### The sliding window buffer

`self.buffer = deque(maxlen=buffer_size)`; `self.buffer.extend(samples)`
appends one sample at a time, evicting the oldest entry once the capacity is
exceeded. -/

/-- Appending one element to a `deque(maxlen=n)`: the new element goes to the
right, and anything beyond the capacity is dropped from the left. -/
def dequePush (n : ℕ) (buf : List SensorSample) (x : SensorSample) : List SensorSample :=
  (buf ++ [x]).drop (buf.length + 1 - n)

/-- `deque.extend`: repeated single-element appends. -/
def dequeExtend (n : ℕ) (buf : List SensorSample) (xs : List SensorSample) : List SensorSample :=
  xs.foldl (dequePush n) buf

/-- The last `n` elements of a list, in order. -/
def takeLast (n : ℕ) (l : List SensorSample) : List SensorSample :=
  l.drop (l.length - n)

/-! ### scipy `find_peaks` with `height` and `distance`, embedded -/

/-- Inner scan of `_local_maxima_1d`
(`while i_ahead < i_max and x[i_ahead] == x[i]: i_ahead += 1`), expressed
with an explicit iteration bound so that it is structurally recursive; the
bound is the loop variable's distance to `i_max`, which the loop never
exceeds, and `aheadIdx_rec` below recovers the literal loop recurrence. -/
def aheadIdxF (x : List ℚ) (iMax v : ℕ) : ℕ → ℕ → ℕ
  | 0, k => k
  | fuel + 1, k =>
    if k < iMax ∧ x.getD k 0 = x.getD v 0 then aheadIdxF x iMax v fuel (k + 1) else k

/-- Starting from `k`, the first index that is `i_max` or carries a value
different from `x[v]`. -/
def aheadIdx (x : List ℚ) (iMax v k : ℕ) : ℕ :=
  aheadIdxF x iMax v (iMax - k) k


/-- Main loop of `_local_maxima_1d`, with the same explicit iteration bound
(`lm1dGo_rec` below recovers the literal loop recurrence): scan `i` from `1`
while `i < i_max` (`i_max = len(x) - 1`); on a strict rise `x[i-1] < x[i]`,
skip the plateau of values equal to `x[i]`; if it is followed by a strict
fall, record the plateau midpoint and resume after the plateau. -/
def lm1dGoF (x : List ℚ) (iMax : ℕ) : ℕ → ℕ → List ℕ
  | 0, _ => []
  | fuel + 1, i =>
    if i < iMax then
      if x.getD (i - 1) 0 < x.getD i 0 then
        if x.getD (aheadIdx x iMax i (i + 1)) 0 < x.getD i 0 then
          (i + (aheadIdx x iMax i (i + 1) - 1)) / 2
            :: lm1dGoF x iMax fuel (aheadIdx x iMax i (i + 1) + 1)
        else
          lm1dGoF x iMax fuel (i + 1)
      else
        lm1dGoF x iMax fuel (i + 1)
    else
      []

/-- The `_local_maxima_1d` scan from position `i`. -/
def lm1dGo (x : List ℚ) (iMax i : ℕ) : List ℕ :=
  lm1dGoF x iMax (iMax - i) i


/-- scipy `_local_maxima_1d`: midpoints of plateaus that are strictly higher
than their neighbours, in increasing index order. -/
def localMaxima1d (x : List ℚ) : List ℕ :=
  lm1dGo x (x.length - 1) 1

/-- Left kill loop of `_select_by_peak_distance`
(`k = j - 1; while 0 <= k and peaks[j] - peaks[k] < distance: keep[k] = 0; k -= 1`).
The argument `c` is the count of indices still to the left of the scan, so the
index under consideration is `c - 1`; the loop starts at `c = j`. -/
def killLeft (peaks : List ℕ) (dist : ℤ) (j : ℕ) : ℕ → List Bool → List Bool
  | 0, keep => keep
  | k + 1, keep =>
    if (peaks.getD j 0 : ℤ) - (peaks.getD k 0 : ℤ) < dist then
      killLeft peaks dist j k (keep.set k false)
    else
      keep

/-- Right kill loop of `_select_by_peak_distance`
(`k = j + 1; while k < peaks_size and peaks[k] - peaks[j] < distance: keep[k] = 0; k += 1`),
with an explicit iteration bound (the loop variable's distance to
`peaks_size`); `killRight_rec` recovers the literal loop recurrence. -/
def killRightF (peaks : List ℕ) (dist : ℤ) (j n : ℕ) : ℕ → ℕ → List Bool → List Bool
  | 0, _, keep => keep
  | fuel + 1, k, keep =>
    if k < n then
      if (peaks.getD k 0 : ℤ) - (peaks.getD j 0 : ℤ) < dist then
        killRightF peaks dist j n fuel (k + 1) (keep.set k false)
      else
        keep
    else
      keep

/-- The right kill loop started at `k`. -/
def killRight (peaks : List ℕ) (dist : ℤ) (j n k : ℕ) (keep : List Bool) : List Bool :=
  killRightF peaks dist j n (n - k) k keep


/-- The argsort comparison on priorities: ascending priority, ties broken by
position (`np.argsort` modelled as a stable sort). -/
def prioLe (priority : List ℚ) (a b : ℕ) : Prop :=
  priority.getD a 0 < priority.getD b 0 ∨
    (priority.getD a 0 = priority.getD b 0 ∧ a ≤ b)

instance (ps : List ℚ) : DecidableRel (prioLe ps) := fun a b =>
  inferInstanceAs (Decidable (_ ∨ _))

/-- The stable argsort of the priorities followed by the reversed iteration of
`_select_by_peak_distance`: array indices in descending (priority, index)
lexicographic order. -/
def priorityOrder (priority : List ℚ) (n : ℕ) : List ℕ :=
  ((List.range n).insertionSort (prioLe priority)).reverse

/-- One iteration of the `_select_by_peak_distance` main loop: a peak index
`j` that is still kept removes everything within `distance` of it on both
sides; an index already removed is skipped (`if keep[j] == 0: continue`). -/
def killStep (peaks : List ℕ) (distance : ℕ) (keep : List Bool) (j : ℕ) : List Bool :=
  if keep.getD j false then
    killRight peaks distance j peaks.length (j + 1) (killLeft peaks distance j j keep)
  else
    keep

/-- scipy `_select_by_peak_distance`: highest-priority peaks are kept and
everything within `distance` of a kept peak is removed; the surviving peaks
are returned in index order (`peaks[keep]`). -/
def selectByPeakDistance (peaks : List ℕ) (priority : List ℚ) (distance : ℕ) : List ℕ :=
  let keep := (priorityOrder priority peaks.length).foldl (killStep peaks distance)
    (List.replicate peaks.length true)
  ((List.range peaks.length).filter fun i => keep.getD i false).map fun i => peaks.getD i 0

/-- scipy `find_peaks(x, height, distance)`: local maxima, filtered by
`height <= x[peak]`, then by minimal peak distance. -/
def findPeaks (x : List ℚ) (height : ℚ) (distance : ℕ) : List ℕ :=
  let peaks := localMaxima1d x
  let peaks2 := peaks.filter fun p => height ≤ x.getD p 0
  selectByPeakDistance peaks2 (peaks2.map fun p => x.getD p 0) distance

/-! ### The swing detector (`swing_detector.py`, class `SwingDetector`)

The wall-clock statistics (`session_start_time`, `elapsed_time_seconds`,
`sample_rate_hz`) are not modelled; the deterministic state is. -/

/-- Mutable state of one `SwingDetector` instance. -/
structure SwingDetector where
  bufferSize : ℕ
  threshold : ℚ
  minDistance : ℕ
  buffer : List SensorSample
  lastPeakTimestamp : ℚ
  minPeakInterval : ℚ
  totalSamplesProcessed : ℕ
  totalPeaksDetected : ℕ
  deriving DecidableEq, Repr

namespace SwingDetector

/-- `SwingDetector.__init__`: empty buffer, `last_peak_timestamp = 0.0`,
`min_peak_interval = 0.5`, zeroed statistics. -/
def init (bufferSize : ℕ := 300) (threshold : ℚ := 2) (minDistance : ℕ := 50) : SwingDetector :=
  { bufferSize := bufferSize
    threshold := threshold
    minDistance := minDistance
    buffer := []
    lastPeakTimestamp := 0
    minPeakInterval := 1 / 2
    totalSamplesProcessed := 0
    totalPeaksDetected := 0 }

/-- The debounce test of `process_batch` line 198: a peak is skipped when
`peak_timestamp - self.last_peak_timestamp < self.min_peak_interval`. -/
def debounceAccept (lastTs minInterval ts : ℚ) : Bool :=
  ¬ (ts - lastTs < minInterval)

/-- One iteration of the `for peak_idx in peaks` loop of `process_batch`:
either skip the peak or emit it and advance the debounce state. -/
def debounceStep (buf : List SensorSample) (minInterval : ℚ)
    (st : List SwingPeak × ℚ × ℕ) (peakIdx : ℕ) : List SwingPeak × ℚ × ℕ :=
  let ts := (buf.map SensorSample.timestamp).getD peakIdx 0
  if debounceAccept st.2.1 minInterval ts then
    let sampleAtPeak := buf.getD peakIdx ⟨0, 0, 0⟩
    let peak : SwingPeak :=
      { timestamp := ts
        peakIndex := peakIdx
        rotationMagnitude := (buf.map SensorSample.rotationMagnitude).getD peakIdx 0
        accelerationMagnitude := sampleAtPeak.accelerationMagnitude
        sensorData := sampleAtPeak }
    (st.1 ++ [peak], ts, st.2.2 + 1)
  else
    st

/-- `SwingDetector.process_batch`: append the batch to the sliding buffer,
count the samples, bail out below `2 * min_distance` buffered samples, run
`find_peaks` over the buffered magnitudes, and debounce the resulting peaks
against `last_peak_timestamp`.  Returns the emitted peaks and the new state. -/
def processBatch (d : SwingDetector) (samples : List SensorSample) :
    List SwingPeak × SwingDetector :=
  if samples = [] then
    ([], d)
  else
    let buf := dequeExtend d.bufferSize d.buffer samples
    let d1 := { d with
      buffer := buf
      totalSamplesProcessed := d.totalSamplesProcessed + samples.length }
    if buf.length < d.minDistance * 2 then
      ([], d1)
    else
      let magnitudes := buf.map SensorSample.rotationMagnitude
      let peaks := findPeaks magnitudes d.threshold d.minDistance
      let res := peaks.foldl (debounceStep buf d1.minPeakInterval)
        ([], d1.lastPeakTimestamp, d1.totalPeaksDetected)
      (res.1, { d1 with lastPeakTimestamp := res.2.1, totalPeaksDetected := res.2.2 })

/-- Feeding a list of batches to a detector in order, collecting every
emitted peak. -/
def runBatches (d : SwingDetector) (batches : List (List SensorSample)) :
    List SwingPeak × SwingDetector :=
  batches.foldl
    (fun acc batch =>
      let r := processBatch acc.2 batch
      (acc.1 ++ r.1, r.2))
    ([], d)

end SwingDetector

/-! ### The peak-detection procedure as the specification words it

These definitions are written from the specification's words (§4.2), to be
compared with the `findPeaks` embedding of the library call above. -/

/-- Specified candidate peaks: interior positions that are `≥` both
neighbours (ties allowed) and `≥` the threshold. -/
def neighborCandidates (x : List ℚ) (t : ℚ) : List ℕ :=
  (List.range x.length).filter fun i =>
    decide (0 < i) && decide (i + 1 < x.length) &&
    decide (x.getD (i - 1) 0 ≤ x.getD i 0) && decide (x.getD (i + 1) 0 ≤ x.getD i 0) &&
    decide (t ≤ x.getD i 0)

/-- The specified scan order: descending magnitude, a tie broken toward the
earlier index when `tieLater = false` and toward the later index when
`tieLater = true`. -/
def magDescLe (x : List ℚ) (tieLater : Bool) (a b : ℕ) : Prop :=
  x.getD b 0 < x.getD a 0 ∨
    (x.getD a 0 = x.getD b 0 ∧ (if tieLater then b ≤ a else a ≤ b))

instance (x : List ℚ) (tieLater : Bool) : DecidableRel (magDescLe x tieLater) := fun a b =>
  inferInstanceAs (Decidable (_ ∨ _))

/-- The number of samples between two positions. -/
def natDist (p q : ℕ) : ℕ :=
  max p q - min p q

/-- Specified `min_distance` resolution: scan the candidates in descending
magnitude order, accept a candidate only if no previously accepted candidate
lies within `d` samples, and return the accepted candidates ordered by
index. -/
def greedySelect (x : List ℚ) (d : ℕ) (tieLater : Bool) (cands : List ℕ) : List ℕ :=
  let ordered := cands.insertionSort (magDescLe x tieLater)
  let accepted := ordered.foldl
    (fun acc c => if acc.all fun a => decide (d ≤ natDist a c) then acc ++ [c] else acc)
    []
  accepted.insertionSort (· ≤ ·)

/-- Analysis device relating the two resolutions: the greedy acceptance step
carried out on peak-array indices rather than on peak positions. -/
def greedyIdxStep (P : List ℕ) (d : ℕ) (acc : List ℕ) (j : ℕ) : List ℕ :=
  if acc.all fun a => decide (d ≤ natDist (P.getD a 0) (P.getD j 0)) then acc ++ [j] else acc

/-- The full procedure exactly as the claim states it. -/
def claimedPeakProcedure (x : List ℚ) (t : ℚ) (d : ℕ) : List ℕ :=
  greedySelect x d false (neighborCandidates x t)

/-- A maximal run `[l, r]` of equal magnitudes lying strictly inside the
sequence and strictly above the values adjacent to it on both sides. -/
def IsPlateau (x : List ℚ) (l r : ℕ) : Prop :=
  1 ≤ l ∧ l ≤ r ∧ r + 1 < x.length ∧
  (∀ j < r + 1, l ≤ j → x.getD j 0 = x.getD l 0) ∧
  x.getD (l - 1) 0 < x.getD l 0 ∧ x.getD (r + 1) 0 < x.getD l 0

instance (x : List ℚ) (l r : ℕ) : Decidable (IsPlateau x l r) := by
  unfold IsPlateau
  exact inferInstance

/-- The plateau midpoints, in index order: the amended candidate notion. -/
def plateauCandidates (x : List ℚ) : List ℕ :=
  (List.range x.length).flatMap fun l =>
    ((List.range x.length).filter fun r => decide (IsPlateau x l r)).map fun r => (l + r) / 2

/-- The amended procedure: plateau-midpoint candidates meeting the threshold,
resolved greedily in descending magnitude order with the later index
preferred on exact ties. -/
def amendedPeakProcedure (x : List ℚ) (t : ℚ) (d : ℕ) : List ℕ :=
  greedySelect x d true ((plateauCandidates x).filter fun p => decide (t ≤ x.getD p 0))

/-! ### Session registry and ingest boundary (`main.py`)

`active_sessions` is a dict from session id to `SwingDetector`; the WebSocket
handler dispatches on the message type.  Database writes other than the raw
sensor buffer (session rows, shot rows) and the wall-clock shot ids are not
modelled; the raw-buffer store is, since claim-level properties depend on it.
-/

/-- The deterministic part of `get_statistics` (the wall-clock fields
`elapsed_time_seconds` and `sample_rate_hz` are not modelled). -/
structure Statistics where
  totalSamplesProcessed : ℕ
  totalPeaksDetected : ℕ
  bufferLen : ℕ
  bufferCapacity : ℕ
  threshold : ℚ
  minDistance : ℕ
  deriving DecidableEq, Repr

/-- `SwingDetector.get_statistics`. -/
def SwingDetector.getStatistics (d : SwingDetector) : Statistics :=
  { totalSamplesProcessed := d.totalSamplesProcessed
    totalPeaksDetected := d.totalPeaksDetected
    bufferLen := d.buffer.length
    bufferCapacity := d.bufferSize
    threshold := d.threshold
    minDistance := d.minDistance }

/-- Messages the server sends back over the WebSocket. -/
inductive OutMessage where
  | sessionStarted (sessionId : String)
  | swingDetected (sessionId : String) (swing : SwingPeak)
  | sessionEnded (sessionId : String) (stats : Statistics)
  | errorMsg (message : String)
  deriving DecidableEq, Repr

/-- The `active_sessions` dict, as a partial map. -/
abbrev Registry : Type := String → Option SwingDetector

/-- The registry with no active session. -/
def emptyRegistry : Registry := fun _ => none

/-- Dict assignment `active_sessions[sid] = det`. -/
def setSession (reg : Registry) (sid : String) (det : SwingDetector) : Registry :=
  fun s => if s = sid then some det else reg s

/-- Dict deletion `del active_sessions[sid]`. -/
def eraseSession (reg : Registry) (sid : String) : Registry :=
  fun s => if s = sid then none else reg s

/-- One stored `raw_sensor_buffer` row.  The random `buffer_id` and the
gzip-compressed payload are not modelled; the identity-relevant columns are. -/
structure RawBufferRecord where
  sessionId : String
  startTimestamp : ℚ
  endTimestamp : ℚ
  sampleCount : ℕ
  deriving DecidableEq, Repr

/-- The `raw_sensor_buffer` table. -/
abbrev RawStore : Type := List RawBufferRecord

/-- `min(s['timestamp'] for s in samples)` (the empty case is unreachable
behind the handler's empty-batch guard). -/
def tsMin (samples : List SensorSample) : ℚ :=
  match samples with
  | [] => 0
  | s :: rest => rest.foldl (fun a r => min a r.timestamp) s.timestamp

/-- `max(s['timestamp'] for s in samples)`. -/
def tsMax (samples : List SensorSample) : ℚ :=
  match samples with
  | [] => 0
  | s :: rest => rest.foldl (fun a r => max a r.timestamp) s.timestamp

/-- The duplicate-range test of `insert_raw_sensor_buffer` (v2.6): same
session id, same start timestamp, same end timestamp. -/
def matchesRange (sid : String) (startT endT : ℚ) (rec : RawBufferRecord) : Bool :=
  decide (rec.sessionId = sid) && decide (rec.startTimestamp = startT) &&
    decide (rec.endTimestamp = endT)

/-- `insert_raw_sensor_buffer`: empty batches are ignored; a batch whose
`(session_id, min timestamp, max timestamp)` already has a stored row is
detected and skipped; otherwise one row is appended. -/
def insertRawSensorBuffer (store : RawStore) (sid : String) (samples : List SensorSample) :
    RawStore :=
  if samples = [] then store
  else
    let startT := tsMin samples
    let endT := tsMax samples
    if store.any (matchesRange sid startT endT) then store
    else store ++ [{ sessionId := sid, startTimestamp := startT, endTimestamp := endT,
                     sampleCount := samples.length }]

/-- Number of stored rows for one `(session_id, start, end)` range. -/
def countMatching (store : RawStore) (sid : String) (startT endT : ℚ) : ℕ :=
  (store.filter (matchesRange sid startT endT)).length

/-- The `session_start` handler (`main.py` lines 326-355): reject a missing
session id, otherwise create a fresh default detector and assign it into
`active_sessions` unconditionally. -/
def handleSessionStart (reg : Registry) (sid : String) : Registry × OutMessage :=
  if sid = "" then
    (reg, .errorMsg "session_id is required")
  else
    (setSession reg sid (SwingDetector.init 300 2 50), .sessionStarted sid)

/-- The `session_end` handler (`main.py` lines 466-504): an active session is
finalized and removed and its statistics are returned; an unknown id takes no
action and sends nothing. -/
def handleSessionEnd (reg : Registry) (sid : String) : Registry × List OutMessage :=
  match reg sid with
  | some det => (eraseSession reg sid, [.sessionEnded sid det.getStatistics])
  | none => (reg, [])

/-- The `sensor_batch` handler (`main.py` lines 358-463): auto-provision an
unknown session with a default detector, always forward the raw samples to
the persistence store, and only when `ENABLE_REALTIME_SWING_DETECTION` is set
run the detector and emit `swing_detected` messages. -/
def handleSensorBatch (enable : Bool) (reg : Registry) (store : RawStore)
    (sid : String) (samples : List SensorSample) :
    Registry × RawStore × List OutMessage :=
  let provisioned :=
    match reg sid with
    | some det => (reg, det)
    | none => (setSession reg sid (SwingDetector.init 300 2 50), SwingDetector.init 300 2 50)
  let store1 := insertRawSensorBuffer store sid samples
  if enable then
    let r := provisioned.2.processBatch samples
    (setSession provisioned.1 sid r.2, store1,
      r.1.map fun p => .swingDetected sid p)
  else
    (provisioned.1, store1, [])

/-! ### Concrete fixtures and order-theoretic instances used by the analysis -/

/-- A sample with a given timestamp and rotation magnitude. -/
def sampleAt (t m : ℚ) : SensorSample :=
  { timestamp := t, rotationMagnitude := m, accelerationMagnitude := 0 }

/-- First half of the rebatching counterexample: a clear peak at index 2. -/
def cexBatchA : List SensorSample :=
  [sampleAt 0 0, sampleAt 1 0, sampleAt 2 3, sampleAt 3 0]

/-- Second half of the rebatching counterexample: flat samples that push the
peak out of the capacity-4 window. -/
def cexBatchB : List SensorSample :=
  [sampleAt 4 0, sampleAt 5 0, sampleAt 6 0, sampleAt 7 0]

/-- A small detector (capacity 4, threshold 2, `min_distance` 2). -/
def cexDetector : SwingDetector := SwingDetector.init 4 2 2
/-- Three below-window samples. -/
def preBatch : List SensorSample := [sampleAt 0 0, sampleAt 1 0, sampleAt 2 3]
/-- The detector state after the three-sample batch: its window still holds
fewer than `2 * min_distance` samples. -/
def cexPreState : SwingDetector := (cexDetector.processBatch preBatch).2
/-- A first-ever candidate peak with a small timestamp (peak at index 2,
timestamp `0.2`). -/
def gateBatch : List SensorSample :=
  [sampleAt 0 0, sampleAt (1/10) 0, sampleAt (1/5) 3, sampleAt (3/10) 0]
/-- A registry holding one session `"s"` whose detector has already processed
samples. -/
def regWithSession : Registry := setSession emptyRegistry "s" cexPreState
/-- The `SwingPeak` object that `process_batch` constructs for a peak index. -/
def mkPeak (buf : List SensorSample) (p : ℕ) : SwingPeak :=
  { timestamp := (buf.map SensorSample.timestamp).getD p 0
    peakIndex := p
    rotationMagnitude := (buf.map SensorSample.rotationMagnitude).getD p 0
    accelerationMagnitude := (buf.getD p ⟨0, 0, 0⟩).accelerationMagnitude
    sensorData := buf.getD p ⟨0, 0, 0⟩ }
instance (ps : List ℚ) : IsTotal ℕ (prioLe ps) := by
  constructor
  intro a b
  rcases lt_trichotomy (ps.getD a 0) (ps.getD b 0) with h | h | h
  · exact Or.inl (Or.inl h)
  · rcases Nat.le_total a b with hab | hab
    · exact Or.inl (Or.inr ⟨h, hab⟩)
    · exact Or.inr (Or.inr ⟨h.symm, hab⟩)
  · exact Or.inr (Or.inl h)

instance (ps : List ℚ) : IsTrans ℕ (prioLe ps) := by
  constructor
  intro a b c hab hbc
  rcases hab with h1 | ⟨h1, h1i⟩ <;> rcases hbc with h2 | ⟨h2, h2i⟩
  · exact Or.inl (lt_trans h1 h2)
  · exact Or.inl (h2 ▸ h1)
  · exact Or.inl (h1 ▸ h2)
  · exact Or.inr ⟨h1.trans h2, Nat.le_trans h1i h2i⟩

instance (x : List ℚ) (tb : Bool) : IsTotal ℕ (magDescLe x tb) := by
  constructor
  intro a b
  rcases lt_trichotomy (x.getD a 0) (x.getD b 0) with h | h | h
  · exact Or.inr (Or.inl h)
  · cases tb
    · rcases Nat.le_total a b with hab | hab
      · exact Or.inl (Or.inr ⟨h, by simp [hab]⟩)
      · exact Or.inr (Or.inr ⟨h.symm, by simp [hab]⟩)
    · rcases Nat.le_total a b with hab | hab
      · exact Or.inr (Or.inr ⟨h.symm, by simp [hab]⟩)
      · exact Or.inl (Or.inr ⟨h, by simp [hab]⟩)
  · exact Or.inl (Or.inl h)

instance (x : List ℚ) (tb : Bool) : IsTrans ℕ (magDescLe x tb) := by
  constructor
  intro a b c hab hbc
  rcases hab with h1 | ⟨h1, h1i⟩ <;> rcases hbc with h2 | ⟨h2, h2i⟩
  · exact Or.inl (lt_trans h2 h1)
  · exact Or.inl (h2 ▸ h1)
  · exact Or.inl (h1.symm ▸ h2)
  · refine Or.inr ⟨h1.trans h2, ?_⟩
    cases tb
    · rw [if_neg (by simp)] at h1i h2i ⊢
      omega
    · rw [if_pos rfl] at h1i h2i ⊢
      omega

instance (x : List ℚ) (tb : Bool) : IsAntisymm ℕ (magDescLe x tb) := by
  constructor
  intro a b hab hba
  rcases hab with h1 | ⟨h1, h1i⟩ <;> rcases hba with h2 | ⟨h2, h2i⟩
  · exact absurd h2 (lt_asymm h1)
  · exact absurd h1 (h2.symm ▸ lt_irrefl _)
  · exact absurd h2 (h1.symm ▸ lt_irrefl _)
  · cases tb
    · rw [if_neg (by simp)] at h1i h2i
      omega
    · rw [if_pos rfl] at h1i h2i
      omega

/-! ### Fuel irrelevance and loop recurrences -/

theorem aheadIdxF_irrel (x : List ℚ) (iMax v : ℕ) :
    ∀ f1 f2 k, iMax - k ≤ f1 → iMax - k ≤ f2 →
      aheadIdxF x iMax v f1 k = aheadIdxF x iMax v f2 k := by
  intro f1
  induction f1 with
  | zero =>
    intro f2 k h1 _
    have hk : ¬ (k < iMax ∧ x.getD k 0 = x.getD v 0) := by
      intro hc
      omega
    cases f2 with
    | zero => rfl
    | succ g =>
      simp only [aheadIdxF]
      rw [if_neg hk]
  | succ f ih =>
    intro f2 k h1 h2
    cases f2 with
    | zero =>
      have hk : ¬ (k < iMax ∧ x.getD k 0 = x.getD v 0) := by
        intro hc
        omega
      simp only [aheadIdxF]
      rw [if_neg hk]
    | succ g =>
      simp only [aheadIdxF]
      split
      · rename_i hc
        exact ih g (k + 1) (by omega) (by omega)
      · rfl

/-- The defining recurrence of the `i_ahead` loop. -/
theorem aheadIdx_rec (x : List ℚ) (iMax v k : ℕ) :
    aheadIdx x iMax v k
      = if k < iMax ∧ x.getD k 0 = x.getD v 0 then aheadIdx x iMax v (k + 1) else k := by
  unfold aheadIdx
  rcases Nat.eq_zero_or_pos (iMax - k) with h | h
  · have hk : ¬ (k < iMax ∧ x.getD k 0 = x.getD v 0) := by
      intro hc
      omega
    rw [if_neg hk]
    rw [h]
    rfl
  · obtain ⟨g, hg⟩ : ∃ g, iMax - k = g + 1 := ⟨iMax - k - 1, by omega⟩
    rw [hg]
    simp only [aheadIdxF]
    split
    · rename_i hc
      exact aheadIdxF_irrel x iMax v g (iMax - (k + 1)) (k + 1) (by omega) (by omega)
    · rfl

theorem aheadIdx_ge (x : List ℚ) (iMax v : ℕ) : ∀ k, k ≤ aheadIdx x iMax v k := by
  suffices h : ∀ n k, iMax - k ≤ n → k ≤ aheadIdx x iMax v k by
    intro k
    exact h (iMax - k) k le_rfl
  intro n
  induction n with
  | zero =>
    intro k h
    rw [aheadIdx_rec, if_neg]
    intro hc
    omega
  | succ n ih =>
    intro k h
    rw [aheadIdx_rec]
    split
    · rename_i hc
      have := ih (k + 1) (by omega)
      omega
    · exact le_rfl

theorem lm1dGoF_irrel (x : List ℚ) (iMax : ℕ) :
    ∀ f1 f2 i, iMax - i ≤ f1 → iMax - i ≤ f2 →
      lm1dGoF x iMax f1 i = lm1dGoF x iMax f2 i := by
  intro f1
  induction f1 with
  | zero =>
    intro f2 i h1 _
    have hi : ¬ i < iMax := by omega
    cases f2 with
    | zero => rfl
    | succ g =>
      simp only [lm1dGoF]
      rw [if_neg hi]
  | succ f ih =>
    intro f2 i h1 h2
    cases f2 with
    | zero =>
      have hi : ¬ i < iMax := by omega
      simp only [lm1dGoF]
      rw [if_neg hi]
    | succ g =>
      simp only [lm1dGoF]
      split
      · rename_i hi
        have hA := aheadIdx_ge x iMax i (i + 1)
        split
        · split
          · exact congrArg (List.cons _)
              (ih g (aheadIdx x iMax i (i + 1) + 1) (by omega) (by omega))
          · exact ih g (i + 1) (by omega) (by omega)
        · exact ih g (i + 1) (by omega) (by omega)
      · rfl

/-- The defining recurrence of the `_local_maxima_1d` main loop. -/
theorem lm1dGo_rec (x : List ℚ) (iMax i : ℕ) :
    lm1dGo x iMax i
      = if i < iMax then
          if x.getD (i - 1) 0 < x.getD i 0 then
            if x.getD (aheadIdx x iMax i (i + 1)) 0 < x.getD i 0 then
              (i + (aheadIdx x iMax i (i + 1) - 1)) / 2
                :: lm1dGo x iMax (aheadIdx x iMax i (i + 1) + 1)
            else
              lm1dGo x iMax (i + 1)
          else
            lm1dGo x iMax (i + 1)
        else
          [] := by
  unfold lm1dGo
  rcases Nat.eq_zero_or_pos (iMax - i) with h | h
  · have hi : ¬ i < iMax := by omega
    rw [if_neg hi, h]
    rfl
  · obtain ⟨g, hg⟩ : ∃ g, iMax - i = g + 1 := ⟨iMax - i - 1, by omega⟩
    rw [hg]
    simp only [lm1dGoF]
    split
    · rename_i hi
      have hA := aheadIdx_ge x iMax i (i + 1)
      split
      · split
        · exact congrArg (List.cons _)
            (lm1dGoF_irrel x iMax g (iMax - (aheadIdx x iMax i (i + 1) + 1))
              (aheadIdx x iMax i (i + 1) + 1) (by omega) (by omega))
        · exact lm1dGoF_irrel x iMax g (iMax - (i + 1)) (i + 1) (by omega) (by omega)
      · exact lm1dGoF_irrel x iMax g (iMax - (i + 1)) (i + 1) (by omega) (by omega)
    · rfl

theorem killRightF_irrel (peaks : List ℕ) (dist : ℤ) (j n : ℕ) :
    ∀ f1 f2 k keep, n - k ≤ f1 → n - k ≤ f2 →
      killRightF peaks dist j n f1 k keep = killRightF peaks dist j n f2 k keep := by
  intro f1
  induction f1 with
  | zero =>
    intro f2 k keep h1 _
    have hk : ¬ k < n := by omega
    cases f2 with
    | zero => rfl
    | succ g =>
      simp only [killRightF]
      rw [if_neg hk]
  | succ f ih =>
    intro f2 k keep h1 h2
    cases f2 with
    | zero =>
      have hk : ¬ k < n := by omega
      simp only [killRightF]
      rw [if_neg hk]
    | succ g =>
      simp only [killRightF]
      split
      · split
        · exact ih g (k + 1) _ (by omega) (by omega)
        · rfl
      · rfl

/-- The defining recurrence of the right kill loop. -/
theorem killRight_rec (peaks : List ℕ) (dist : ℤ) (j n k : ℕ) (keep : List Bool) :
    killRight peaks dist j n k keep
      = if k < n then
          if (peaks.getD k 0 : ℤ) - (peaks.getD j 0 : ℤ) < dist then
            killRight peaks dist j n (k + 1) (keep.set k false)
          else
            keep
        else
          keep := by
  unfold killRight
  rcases Nat.eq_zero_or_pos (n - k) with h | h
  · have hk : ¬ k < n := by omega
    rw [if_neg hk, h]
    rfl
  · obtain ⟨g, hg⟩ : ∃ g, n - k = g + 1 := ⟨n - k - 1, by omega⟩
    rw [hg]
    simp only [killRightF]
    split
    · split
      · exact killRightF_irrel peaks dist j n g _ (k + 1) _ (by omega) (by omega)
      · rfl
    · rfl

/-! ### Buffer lemmas -/

theorem dequePush_eq_takeLast (n : ℕ) (buf : List SensorSample) (x : SensorSample) :
    dequePush n buf x = takeLast n (buf ++ [x]) := by
  simp [dequePush, takeLast]

theorem takeLast_of_length_le (n : ℕ) (l : List SensorSample) (h : l.length ≤ n) :
    takeLast n l = l := by
  simp [takeLast, Nat.sub_eq_zero_of_le h]

theorem length_takeLast_le (n : ℕ) (l : List SensorSample) : (takeLast n l).length ≤ n := by
  simp [takeLast]
  omega

theorem takeLast_takeLast_append (n : ℕ) (u xs : List SensorSample) :
    takeLast n (takeLast n u ++ xs) = takeLast n (u ++ xs) := by
  rcases le_or_lt u.length n with h | h
  · rw [takeLast_of_length_le n u h]
  · simp only [takeLast, List.length_append, List.length_drop,
      List.drop_append_eq_append_drop, List.drop_drop]
    congr 2 <;> omega

theorem length_dequePush_le (n : ℕ) (buf : List SensorSample) (x : SensorSample) :
    (dequePush n buf x).length ≤ n := by
  rw [dequePush_eq_takeLast]
  exact length_takeLast_le n _

theorem dequeExtend_eq_takeLast (n : ℕ) (buf xs : List SensorSample)
    (h : buf.length ≤ n) : dequeExtend n buf xs = takeLast n (buf ++ xs) := by
  induction xs generalizing buf with
  | nil => simpa [dequeExtend] using (takeLast_of_length_le n buf h).symm
  | cons x xs ih =>
    have step : dequeExtend n buf (x :: xs) = dequeExtend n (dequePush n buf x) xs := rfl
    rw [step, ih _ (length_dequePush_le n buf x), dequePush_eq_takeLast,
      takeLast_takeLast_append]
    simp

theorem foldl_dequeExtend (N : ℕ) (buf : List SensorSample)
    (batches : List (List SensorSample)) (h : buf.length ≤ N) :
    batches.foldl (dequeExtend N) buf = takeLast N (buf ++ batches.flatten) := by
  induction batches generalizing buf with
  | nil => simpa using (takeLast_of_length_le N buf h).symm
  | cons b bs ih =>
    have hb : (dequeExtend N buf b).length ≤ N := by
      rw [dequeExtend_eq_takeLast N buf b h]
      exact length_takeLast_le N _
    calc (b :: bs).foldl (dequeExtend N) buf
        = bs.foldl (dequeExtend N) (dequeExtend N buf b) := rfl
      _ = takeLast N (dequeExtend N buf b ++ bs.flatten) := ih _ hb
      _ = takeLast N (takeLast N (buf ++ b) ++ bs.flatten) := by
          rw [dequeExtend_eq_takeLast N buf b h]
      _ = takeLast N ((buf ++ b) ++ bs.flatten) := takeLast_takeLast_append N _ _
      _ = takeLast N (buf ++ (b :: bs).flatten) := by simp

/-! ### `process_batch` state lemmas -/

theorem processBatch_empty (d : SwingDetector) : d.processBatch [] = ([], d) := rfl

theorem processBatch_totalSamples (d : SwingDetector) (s : List SensorSample) :
    (d.processBatch s).2.totalSamplesProcessed = d.totalSamplesProcessed + s.length := by
  unfold SwingDetector.processBatch
  split
  · simp [*]
  · dsimp only
    split
    · rfl
    · rfl

theorem processBatch_buffer (d : SwingDetector) (s : List SensorSample) :
    (d.processBatch s).2.buffer = dequeExtend d.bufferSize d.buffer s := by
  unfold SwingDetector.processBatch
  split
  · simp [*, dequeExtend]
  · dsimp only
    split
    · rfl
    · rfl

theorem processBatch_params (d : SwingDetector) (s : List SensorSample) :
    (d.processBatch s).2.bufferSize = d.bufferSize
    ∧ (d.processBatch s).2.threshold = d.threshold
    ∧ (d.processBatch s).2.minDistance = d.minDistance
    ∧ (d.processBatch s).2.minPeakInterval = d.minPeakInterval := by
  unfold SwingDetector.processBatch
  split
  · simp
  · dsimp only
    split
    · exact ⟨rfl, rfl, rfl, rfl⟩
    · exact ⟨rfl, rfl, rfl, rfl⟩

theorem runBatches_snd (d : SwingDetector) (batches : List (List SensorSample)) :
    (d.runBatches batches).2 = batches.foldl (fun st b => (st.processBatch b).2) d := by
  unfold SwingDetector.runBatches
  suffices h : ∀ (acc : List SwingPeak) (d : SwingDetector),
      (batches.foldl (fun acc batch =>
        ((acc.1 ++ (SwingDetector.processBatch acc.2 batch).1,
          (SwingDetector.processBatch acc.2 batch).2) : List SwingPeak × SwingDetector))
        (acc, d)).2
      = batches.foldl (fun st b => (st.processBatch b).2) d by
    exact h [] d
  induction batches with
  | nil => intro acc d; rfl
  | cons b bs ih => intro acc d; exact ih _ _

theorem foldl_processBatch_state (d : SwingDetector) (batches : List (List SensorSample))
    (h : d.buffer.length ≤ d.bufferSize) :
    (batches.foldl (fun st b => (st.processBatch b).2) d).totalSamplesProcessed
        = d.totalSamplesProcessed + (batches.map List.length).sum
    ∧ (batches.foldl (fun st b => (st.processBatch b).2) d).buffer
        = takeLast d.bufferSize (d.buffer ++ batches.flatten)
    ∧ (batches.foldl (fun st b => (st.processBatch b).2) d).bufferSize = d.bufferSize := by
  induction batches generalizing d with
  | nil =>
    refine ⟨by simp, ?_, rfl⟩
    simpa using (takeLast_of_length_le _ _ h).symm
  | cons b bs ih =>
    have hparams := processBatch_params d b
    have hbuf := processBatch_buffer d b
    have hlen : (d.processBatch b).2.buffer.length ≤ (d.processBatch b).2.bufferSize := by
      rw [hbuf, hparams.1, dequeExtend_eq_takeLast _ _ _ h]
      exact length_takeLast_le _ _
    obtain ⟨ih1, ih2, ih3⟩ := ih (d.processBatch b).2 hlen
    refine ⟨?_, ?_, ?_⟩
    · calc ((b :: bs).foldl (fun st b => (st.processBatch b).2) d).totalSamplesProcessed
          = (bs.foldl (fun st b => (st.processBatch b).2)
              (d.processBatch b).2).totalSamplesProcessed := rfl
        _ = (d.processBatch b).2.totalSamplesProcessed + (bs.map List.length).sum := ih1
        _ = d.totalSamplesProcessed + ((b :: bs).map List.length).sum := by
            rw [processBatch_totalSamples]
            simp
            omega
    · calc ((b :: bs).foldl (fun st b => (st.processBatch b).2) d).buffer
          = takeLast (d.processBatch b).2.bufferSize
              ((d.processBatch b).2.buffer ++ bs.flatten) := ih2
        _ = takeLast d.bufferSize (dequeExtend d.bufferSize d.buffer b ++ bs.flatten) := by
            rw [hparams.1, hbuf]
        _ = takeLast d.bufferSize (takeLast d.bufferSize (d.buffer ++ b) ++ bs.flatten) := by
            rw [dequeExtend_eq_takeLast _ _ _ h]
        _ = takeLast d.bufferSize ((d.buffer ++ b) ++ bs.flatten) :=
            takeLast_takeLast_append _ _ _
        _ = takeLast d.bufferSize (d.buffer ++ (b :: bs).flatten) := by simp
    · rw [show ((b :: bs).foldl (fun st b => (st.processBatch b).2) d)
          = bs.foldl (fun st b => (st.processBatch b).2) (d.processBatch b).2 from rfl,
        ih3, hparams.1]

/-! ### Claim C3 -/

/-- C3: over every sequence of appends, a capacity-`N` window buffer never
exceeds length `N` and always holds exactly the most recent `N` samples in
arrival order; appending an empty batch leaves the detector state unchanged
and returns no events. -/
theorem C3_window_buffer :
    (∀ (N : ℕ) (batches : List (List SensorSample)),
        (batches.foldl (dequeExtend N) []).length ≤ N
        ∧ batches.foldl (dequeExtend N) [] = takeLast N batches.flatten)
    ∧ ∀ d : SwingDetector, d.processBatch [] = ([], d) := by
  refine ⟨fun N batches => ?_, fun d => rfl⟩
  have h := foldl_dequeExtend N [] batches (by simp)
  simp only [List.nil_append] at h
  exact ⟨h ▸ length_takeLast_le N _, h⟩

/-! ### Claim C2 -/

/-- C2 (amended): regardless of how a sample stream is split into batches,
`samples_processed` ends at the total sample count and the final window
contents agree with feeding everything as one batch; detected events and
peak statistics are not preserved by rebatching (see the counterexample). -/
theorem C2_batching_amended :
    ∀ (b : ℕ) (t : ℚ) (m : ℕ) (batches : List (List SensorSample)),
      ((SwingDetector.init b t m).runBatches batches).2.totalSamplesProcessed
          = (batches.map List.length).sum
      ∧ ((SwingDetector.init b t m).runBatches batches).2.buffer
          = takeLast b batches.flatten
      ∧ ((SwingDetector.init b t m).runBatches batches).2.totalSamplesProcessed
          = ((SwingDetector.init b t m).runBatches [batches.flatten]).2.totalSamplesProcessed
      ∧ ((SwingDetector.init b t m).runBatches batches).2.buffer
          = ((SwingDetector.init b t m).runBatches [batches.flatten]).2.buffer := by
  intro b t m batches
  have hinit : (SwingDetector.init b t m).buffer.length ≤ (SwingDetector.init b t m).bufferSize := by
    simp [SwingDetector.init]
  have h1 := foldl_processBatch_state (SwingDetector.init b t m) batches hinit
  have h2 := foldl_processBatch_state (SwingDetector.init b t m) [batches.flatten] hinit
  simp only [SwingDetector.init, List.map_cons, List.map_nil, List.sum_cons, List.sum_nil,
    List.nil_append, List.flatten_cons, List.flatten_nil, List.append_nil] at h1 h2
  simp only [runBatches_snd, SwingDetector.init]
  refine ⟨?_, ?_, ?_, ?_⟩
  · rw [h1.1]
    exact Nat.zero_add _
  · rw [h1.2.1]
  · rw [h1.1, h2.1, List.length_flatten]
    omega
  · rw [h1.2.1, h2.2.1]


/-- C2 counterexample: the same samples split as two batches produce a swing
event and `total_peaks_detected = 1`, while fed as one batch they produce no
event at all, because the peak is evicted from the window before detection
ever runs. -/
theorem C2_batching_counterexample :
    (cexDetector.runBatches [cexBatchA, cexBatchB]).1
        ≠ (cexDetector.runBatches [cexBatchA ++ cexBatchB]).1
    ∧ (cexDetector.runBatches [cexBatchA, cexBatchB]).2.totalPeaksDetected
        ≠ (cexDetector.runBatches [cexBatchA ++ cexBatchB]).2.totalPeaksDetected := by
  decide

/-! ### Claim C7 -/

/-- C7 (amended): when the window *after* appending a nonempty batch still
holds fewer than `2 * min_distance` samples, `process_batch` returns no
events and no error, while the samples are appended and counted. -/
theorem C7_insufficient_window_amended (d : SwingDetector) (samples : List SensorSample)
    (h1 : samples ≠ [])
    (h2 : (dequeExtend d.bufferSize d.buffer samples).length < d.minDistance * 2) :
    d.processBatch samples
      = ([], { d with
          buffer := dequeExtend d.bufferSize d.buffer samples,
          totalSamplesProcessed := d.totalSamplesProcessed + samples.length }) := by
  unfold SwingDetector.processBatch
  rw [if_neg h1]
  dsimp only
  rw [if_pos h2]


/-- C7 witness: a fresh capacity-4 detector fed three samples stays below the
`2 * min_distance = 4` window and returns no events while counting them. -/
theorem C7_insufficient_window_witness :
    cexDetector.processBatch preBatch
      = ([], { cexDetector with
          buffer := dequeExtend cexDetector.bufferSize cexDetector.buffer preBatch,
          totalSamplesProcessed := cexDetector.totalSamplesProcessed + preBatch.length }) :=
  C7_insufficient_window_amended cexDetector preBatch (by decide) (by decide)


/-- C7 counterexample against the pre-state reading of the claim: from a
state whose window holds fewer than `2 * min_distance` samples, one more
ingested sample crosses the detection threshold and an event IS returned. -/
theorem C7_insufficient_window_counterexample :
    cexPreState.buffer.length < 2 * cexPreState.minDistance
    ∧ (cexPreState.processBatch [sampleAt 3 0]).1 ≠ [] := by
  decide

/-! ### Claim C4 -/


/-- C4 counterexample: on a fresh session the magnitude signal has a
candidate peak (index 2), yet `process_batch` emits nothing, because
`last_peak_timestamp` starts at `0.0` rather than unset and the peak's
timestamp `0.2` is closer than `min_peak_interval` to it.  The first
candidate of a session is therefore not always accepted. -/
theorem C4_debounce_gate_counterexample :
    findPeaks (gateBatch.map SensorSample.rotationMagnitude)
        cexDetector.threshold cexDetector.minDistance = [2]
    ∧ (cexDetector.processBatch gateBatch).1 = [] := by
  decide

/-- C4 (amended): `last_peak_timestamp` starts at `0.0` (not unset) with
`min_peak_interval = 0.5`; a candidate with timestamp `ts` is accepted iff
`ts - last_peak_timestamp ≥ min_peak_interval`, and on acceptance the gate
state advances to `ts`.  In particular the first candidate of a session is
accepted iff its timestamp is at least `0.5`. -/
theorem C4_debounce_gate_amended :
    (∀ (b : ℕ) (t : ℚ) (m : ℕ),
        (SwingDetector.init b t m).lastPeakTimestamp = 0
        ∧ (SwingDetector.init b t m).minPeakInterval = 1 / 2)
    ∧ (∀ lastTs minInterval ts : ℚ,
        SwingDetector.debounceAccept lastTs minInterval ts = true ↔ minInterval ≤ ts - lastTs)
    ∧ (∀ (buf : List SensorSample) (minInterval : ℚ) (st : List SwingPeak × ℚ × ℕ) (p : ℕ),
        (SwingDetector.debounceStep buf minInterval st p).2.1
          = if SwingDetector.debounceAccept st.2.1 minInterval
                ((buf.map SensorSample.timestamp).getD p 0)
            then (buf.map SensorSample.timestamp).getD p 0 else st.2.1)
    ∧ (∀ ts : ℚ,
        SwingDetector.debounceAccept 0 (1 / 2) ts = true ↔ 1 / 2 ≤ ts) := by
  refine ⟨fun b t m => ⟨rfl, rfl⟩, fun lastTs minInterval ts => ?_, fun buf minInterval st p => ?_,
    fun ts => ?_⟩
  · simp [SwingDetector.debounceAccept]
  · unfold SwingDetector.debounceStep
    dsimp only
    split
    · rfl
    · rfl
  · simp [SwingDetector.debounceAccept]

/-! ### Claim C5 -/


/-- C5 counterexample: starting a session id that is already active does not
return the existing controller; a fresh default detector replaces it, and the
old controller's buffered samples and statistics are gone (`main.py` lines
337-343 assign unconditionally). -/
theorem C5_start_idempotent_counterexample :
    regWithSession "s" = some cexPreState
    ∧ (handleSessionStart regWithSession "s").1 "s" ≠ some cexPreState := by
  constructor
  · rfl
  · decide

/-- C5 (amended): a second `start` on an active id is not a no-op:
it overwrites the registry entry with a freshly initialized default detector
(empty buffer, zeroed statistics) — last-writer-wins — while leaving every
other session untouched and acknowledging the start. -/
theorem C5_start_idempotent_amended (reg : Registry) (sid : String) (h : sid ≠ "") :
    (handleSessionStart reg sid).1 sid = some (SwingDetector.init 300 2 50)
    ∧ (handleSessionStart reg sid).2 = OutMessage.sessionStarted sid
    ∧ ∀ s, s ≠ sid → (handleSessionStart reg sid).1 s = reg s := by
  unfold handleSessionStart
  rw [if_neg h]
  refine ⟨?_, rfl, ?_⟩
  · simp [setSession]
  · intro s hs
    simp [setSession, hs]

/-- C5 witness: the amended behaviour at the concrete collision. -/
theorem C5_start_idempotent_witness :
    (handleSessionStart regWithSession "s").1 "s" = some (SwingDetector.init 300 2 50) :=
  (C5_start_idempotent_amended regWithSession "s" (by decide)).1

/-! ### Claim C6 -/

/-- C6 counterexample: ending an unknown id is indeed non-fatal and leaves
the registry untouched, but nothing at all is reported to the caller — the
response list is empty, refuting "reports a not-found condition to the
caller" (`main.py` lines 466-504 have no else branch). -/
theorem C6_end_unknown_counterexample :
    regWithSession "x" = none
    ∧ handleSessionEnd regWithSession "x" = (regWithSession, []) := by
  constructor
  · rfl
  · rfl

/-- C6 (amended): `end` on an unknown id (including an id already ended,
since ending removes the entry) is a silent no-op: no response is sent, the
call is not fatal, and the registry — hence every other session — is left
unchanged. -/
theorem C6_end_unknown_amended :
    (∀ (reg : Registry) (sid : String), reg sid = none →
        handleSessionEnd reg sid = (reg, []))
    ∧ (∀ (reg : Registry) (sid : String) (det : SwingDetector), reg sid = some det →
        handleSessionEnd (handleSessionEnd reg sid).1 sid
          = ((handleSessionEnd reg sid).1, [])) := by
  constructor
  · intro reg sid h
    unfold handleSessionEnd
    rw [h]
  · intro reg sid det h
    have h1 : (handleSessionEnd reg sid).1 = eraseSession reg sid := by
      unfold handleSessionEnd
      rw [h]
    rw [h1]
    unfold handleSessionEnd eraseSession
    simp

/-- C6 witness: the amended behaviour at concrete inputs. -/
theorem C6_end_unknown_witness :
    handleSessionEnd regWithSession "x" = (regWithSession, [])
    ∧ handleSessionEnd (handleSessionEnd regWithSession "s").1 "s"
        = ((handleSessionEnd regWithSession "s").1, []) :=
  ⟨C6_end_unknown_amended.1 regWithSession "x" rfl,
   C6_end_unknown_amended.2 regWithSession "s" cexPreState rfl⟩

/-! ### Claim C8 -/

/-- C8 (amended): with realtime detection disabled, a sensor batch emits no
swing messages and the raw samples are still forwarded to persistence exactly
as in the enabled configuration - but the detector is never run, so the
session's statistics are NOT updated: the registry keeps the detector exactly
as it was (a fresh default one when the session was just auto-provisioned). -/
theorem C8_detection_disabled_amended :
    ∀ (reg : Registry) (store : RawStore) (sid : String) (samples : List SensorSample),
      (handleSensorBatch false reg store sid samples).2.2 = []
      ∧ (handleSensorBatch false reg store sid samples).2.1
          = insertRawSensorBuffer store sid samples
      ∧ (handleSensorBatch false reg store sid samples).2.1
          = (handleSensorBatch true reg store sid samples).2.1
      ∧ (handleSensorBatch false reg store sid samples).1 sid
          = some (match reg sid with
              | some det => det
              | none => SwingDetector.init 300 2 50) := by
  intro reg store sid samples
  unfold handleSensorBatch
  cases h : reg sid with
  | some det => simp [setSession, h]
  | none => simp [setSession, h]

/-- C8 counterexample: after one 4-sample batch, the disabled configuration
leaves `total_samples_processed` at 0 while the enabled configuration counts
4 — statistics are not "tracked exactly as when detection is enabled". -/
theorem C8_detection_disabled_counterexample :
    ((handleSensorBatch false emptyRegistry [] "s" cexBatchA).1 "s").map
        SwingDetector.totalSamplesProcessed = some 0
    ∧ ((handleSensorBatch true emptyRegistry [] "s" cexBatchA).1 "s").map
        SwingDetector.totalSamplesProcessed = some 4 := by
  decide

/-! ### Claim C9 -/

theorem countMatching_append (store : RawStore) (recs : List RawBufferRecord)
    (sid : String) (startT endT : ℚ) :
    countMatching (store ++ recs) sid startT endT
      = countMatching store sid startT endT + countMatching recs sid startT endT := by
  simp [countMatching, List.filter_append]

theorem any_iff_countMatching_pos (store : RawStore) (sid : String) (startT endT : ℚ) :
    store.any (matchesRange sid startT endT) = true
      ↔ 0 < countMatching store sid startT endT := by
  simp [countMatching, List.any_eq_true, List.length_pos_iff_ne_nil,
    List.filter_eq_nil_iff]

/-- C9: `store_raw_batch` is idempotent on `(session_id, min ts, max ts)`:
from any store holding at most one row for that key, storing a batch and then
a second batch with the same session id and the same minimum and maximum
timestamps leaves exactly one stored row, the repeat call being a
detected-and-skipped no-op. -/
theorem C9_store_idempotent (store : RawStore) (sid : String) (b1 b2 : List SensorSample)
    (hb1 : b1 ≠ []) (hb2 : b2 ≠ [])
    (hmin : tsMin b2 = tsMin b1) (hmax : tsMax b2 = tsMax b1)
    (hdup : countMatching store sid (tsMin b1) (tsMax b1) ≤ 1) :
    insertRawSensorBuffer (insertRawSensorBuffer store sid b1) sid b2
        = insertRawSensorBuffer store sid b1
    ∧ countMatching (insertRawSensorBuffer (insertRawSensorBuffer store sid b1) sid b2)
        sid (tsMin b1) (tsMax b1) = 1 := by
  have hrec : matchesRange sid (tsMin b1) (tsMax b1)
      { sessionId := sid, startTimestamp := tsMin b1, endTimestamp := tsMax b1,
        sampleCount := b1.length } = true := by
    simp [matchesRange]
  by_cases hany : store.any (matchesRange sid (tsMin b1) (tsMax b1)) = true
  · have h1 : insertRawSensorBuffer store sid b1 = store := by
      unfold insertRawSensorBuffer
      rw [if_neg hb1, if_pos hany]
    have hcount : countMatching store sid (tsMin b1) (tsMax b1) = 1 := by
      have := (any_iff_countMatching_pos store sid (tsMin b1) (tsMax b1)).1 hany
      omega
    have h2 : insertRawSensorBuffer store sid b2 = store := by
      unfold insertRawSensorBuffer
      rw [if_neg hb2, hmin, hmax, if_pos hany]
    rw [h1, h2]
    exact ⟨rfl, hcount⟩
  · have h1 : insertRawSensorBuffer store sid b1
        = store ++ [{ sessionId := sid, startTimestamp := tsMin b1, endTimestamp := tsMax b1,
                      sampleCount := b1.length }] := by
      unfold insertRawSensorBuffer
      rw [if_neg hb1, if_neg hany]
    have hzero : countMatching store sid (tsMin b1) (tsMax b1) = 0 := by
      rcases Nat.eq_zero_or_pos (countMatching store sid (tsMin b1) (tsMax b1)) with h | h
      · exact h
      · exact absurd ((any_iff_countMatching_pos store sid (tsMin b1) (tsMax b1)).2 h) hany
    have hone : countMatching (insertRawSensorBuffer store sid b1) sid (tsMin b1) (tsMax b1)
        = 1 := by
      rw [h1, countMatching_append, hzero]
      simp [countMatching, hrec]
    have hany2 : (insertRawSensorBuffer store sid b1).any
        (matchesRange sid (tsMin b1) (tsMax b1)) = true := by
      rw [any_iff_countMatching_pos, hone]
      omega
    have h2 : insertRawSensorBuffer (insertRawSensorBuffer store sid b1) sid b2
        = insertRawSensorBuffer store sid b1 := by
      generalize hq : insertRawSensorBuffer store sid b1 = s1 at hany2 ⊢
      unfold insertRawSensorBuffer
      rw [if_neg hb2, hmin, hmax, if_pos hany2]
    rw [h2]
    exact ⟨rfl, hone⟩

/-- C9 witness: two one-sample batches with the same timestamp stored twice
into an empty store leave exactly one row. -/
theorem C9_store_idempotent_witness :
    insertRawSensorBuffer (insertRawSensorBuffer [] "s" [sampleAt 1 3]) "s" [sampleAt 1 5]
        = insertRawSensorBuffer [] "s" [sampleAt 1 3]
    ∧ countMatching (insertRawSensorBuffer (insertRawSensorBuffer [] "s" [sampleAt 1 3])
          "s" [sampleAt 1 5]) "s" (tsMin [sampleAt 1 3]) (tsMax [sampleAt 1 3]) = 1 :=
  C9_store_idempotent [] "s" [sampleAt 1 3] [sampleAt 1 5]
    (by decide) (by decide) (by decide) (by decide) (by decide)

/-! ### Claim C10 -/

theorem debounceAccept_iff (lastTs g ts : ℚ) :
    SwingDetector.debounceAccept lastTs g ts = true ↔ lastTs + g ≤ ts := by
  simp only [SwingDetector.debounceAccept, decide_eq_true_eq, not_lt]
  constructor
  · intro h
    linarith
  · intro h
    linarith


theorem debounceStep_cases (buf : List SensorSample) (g : ℚ)
    (st : List SwingPeak × ℚ × ℕ) (p : ℕ) :
    (SwingDetector.debounceAccept st.2.1 g ((buf.map SensorSample.timestamp).getD p 0) = true
      ∧ SwingDetector.debounceStep buf g st p
        = (st.1 ++ [mkPeak buf p], (buf.map SensorSample.timestamp).getD p 0, st.2.2 + 1))
    ∨ (SwingDetector.debounceAccept st.2.1 g ((buf.map SensorSample.timestamp).getD p 0) = false
        ∧ SwingDetector.debounceStep buf g st p = st) := by
  by_cases h : SwingDetector.debounceAccept st.2.1 g
      ((buf.map SensorSample.timestamp).getD p 0) = true
  · left
    refine ⟨h, ?_⟩
    unfold SwingDetector.debounceStep
    dsimp only
    rw [if_pos h]
    rfl
  · right
    refine ⟨by simpa using h, ?_⟩
    unfold SwingDetector.debounceStep
    dsimp only
    rw [if_neg h]

theorem mkPeak_timestamp (buf : List SensorSample) (p : ℕ) :
    (mkPeak buf p).timestamp = (buf.map SensorSample.timestamp).getD p 0 := rfl

theorem debounceFold_spec (buf : List SensorSample) (g : ℚ) (hg : 0 < g) :
    ∀ (peaks : List ℕ) (acc : List SwingPeak) (last : ℚ) (cnt : ℕ),
      List.Chain' (fun e1 e2 => e1.timestamp + g ≤ e2.timestamp) acc →
      (∀ e ∈ acc, e.timestamp ≤ last) →
      List.Chain' (fun e1 e2 => e1.timestamp + g ≤ e2.timestamp)
          (peaks.foldl (SwingDetector.debounceStep buf g) (acc, last, cnt)).1
      ∧ (∀ e ∈ (peaks.foldl (SwingDetector.debounceStep buf g) (acc, last, cnt)).1,
          e.timestamp ≤ (peaks.foldl (SwingDetector.debounceStep buf g) (acc, last, cnt)).2.1)
      ∧ last ≤ (peaks.foldl (SwingDetector.debounceStep buf g) (acc, last, cnt)).2.1
      ∧ (∀ e ∈ (peaks.foldl (SwingDetector.debounceStep buf g) (acc, last, cnt)).1,
          e ∈ acc ∨ last + g ≤ e.timestamp) := by
  intro peaks
  induction peaks with
  | nil =>
    intro acc last cnt hchain hle
    exact ⟨hchain, hle, le_rfl, fun e he => Or.inl he⟩
  | cons p ps ih =>
    intro acc last cnt hchain hle
    simp only [List.foldl_cons]
    rcases debounceStep_cases buf g (acc, last, cnt) p with ⟨hacc, heq⟩ | ⟨hrej, heq⟩
    · rw [heq]
      have hts : last + g ≤ (buf.map SensorSample.timestamp).getD p 0 :=
        (debounceAccept_iff last g _).1 hacc
      have hlast_lt : last < (buf.map SensorSample.timestamp).getD p 0 := by linarith
      have hchain' : List.Chain' (fun e1 e2 => e1.timestamp + g ≤ e2.timestamp)
          (acc ++ [mkPeak buf p]) := by
        refine List.Chain'.append hchain (List.chain'_singleton _) ?_
        intro e1 he1 e2 he2
        have hmem : e1 ∈ acc := List.mem_of_getLast?_eq_some he1
        simp only [List.head?_cons, Option.mem_def, Option.some.injEq] at he2
        subst he2
        have := hle e1 hmem
        rw [mkPeak_timestamp]
        linarith
      have hle' : ∀ e ∈ acc ++ [mkPeak buf p],
          e.timestamp ≤ (buf.map SensorSample.timestamp).getD p 0 := by
        intro e he
        rcases List.mem_append.1 he with h | h
        · have := hle e h
          linarith
        · simp only [List.mem_singleton] at h
          subst h
          rw [mkPeak_timestamp]
      obtain ⟨c1, c2, c3, c4⟩ := ih _ _ (cnt + 1) hchain' hle'
      refine ⟨c1, c2, le_trans (le_of_lt hlast_lt) c3, ?_⟩
      intro e he
      rcases c4 e he with h | h
      · rcases List.mem_append.1 h with h' | h'
        · exact Or.inl h'
        · simp only [List.mem_singleton] at h'
          subst h'
          rw [mkPeak_timestamp]
          exact Or.inr hts
      · exact Or.inr (by linarith)
    · rw [heq]
      exact ih acc last cnt hchain hle

/-- Events emitted by one `process_batch` call: consecutive gaps of at least
`min_peak_interval`, all after the previous debounce state, and
`last_peak_timestamp` never decreases. -/
theorem processBatch_events (d : SwingDetector) (s : List SensorSample)
    (hg : 0 < d.minPeakInterval) :
    List.Chain' (fun e1 e2 => e1.timestamp + d.minPeakInterval ≤ e2.timestamp)
        (d.processBatch s).1
    ∧ (∀ e ∈ (d.processBatch s).1,
        d.lastPeakTimestamp + d.minPeakInterval ≤ e.timestamp)
    ∧ (∀ e ∈ (d.processBatch s).1,
        e.timestamp ≤ (d.processBatch s).2.lastPeakTimestamp)
    ∧ d.lastPeakTimestamp ≤ (d.processBatch s).2.lastPeakTimestamp := by
  unfold SwingDetector.processBatch
  split
  · simp
  · dsimp only
    split
    · simp
    · obtain ⟨c1, c2, c3, c4⟩ := debounceFold_spec (dequeExtend d.bufferSize d.buffer s)
        d.minPeakInterval hg
        (findPeaks ((dequeExtend d.bufferSize d.buffer s).map SensorSample.rotationMagnitude)
          d.threshold d.minDistance)
        [] d.lastPeakTimestamp d.totalPeaksDetected List.chain'_nil (by simp)
      refine ⟨c1, ?_, c2, c3⟩
      intro e he
      rcases c4 e he with h | h
      · simp at h
      · exact h

theorem runFold_events (g : ℚ) (hg : 0 < g) :
    ∀ (batches : List (List SensorSample)) (acc : List SwingPeak) (det : SwingDetector),
      det.minPeakInterval = g →
      List.Chain' (fun e1 e2 => e1.timestamp + g ≤ e2.timestamp) acc →
      (∀ e ∈ acc, e.timestamp ≤ det.lastPeakTimestamp) →
      List.Chain' (fun e1 e2 => e1.timestamp + g ≤ e2.timestamp)
          (batches.foldl (fun a batch =>
            ((a.1 ++ (SwingDetector.processBatch a.2 batch).1,
              (SwingDetector.processBatch a.2 batch).2) : List SwingPeak × SwingDetector))
            (acc, det)).1
      ∧ (∀ e ∈ (batches.foldl (fun a batch =>
            ((a.1 ++ (SwingDetector.processBatch a.2 batch).1,
              (SwingDetector.processBatch a.2 batch).2) : List SwingPeak × SwingDetector))
            (acc, det)).1,
          e.timestamp ≤ (batches.foldl (fun a batch =>
            ((a.1 ++ (SwingDetector.processBatch a.2 batch).1,
              (SwingDetector.processBatch a.2 batch).2) : List SwingPeak × SwingDetector))
            (acc, det)).2.lastPeakTimestamp)
      ∧ det.lastPeakTimestamp ≤ (batches.foldl (fun a batch =>
            ((a.1 ++ (SwingDetector.processBatch a.2 batch).1,
              (SwingDetector.processBatch a.2 batch).2) : List SwingPeak × SwingDetector))
            (acc, det)).2.lastPeakTimestamp
      ∧ (batches.foldl (fun a batch =>
            ((a.1 ++ (SwingDetector.processBatch a.2 batch).1,
              (SwingDetector.processBatch a.2 batch).2) : List SwingPeak × SwingDetector))
            (acc, det)).2.minPeakInterval = g := by
  intro batches
  induction batches with
  | nil =>
    intro acc det hint hchain hle
    exact ⟨hchain, hle, le_rfl, hint⟩
  | cons b bs ih =>
    intro acc det hint hchain hle
    simp only [List.foldl_cons]
    have hg' : 0 < det.minPeakInterval := hint ▸ hg
    obtain ⟨p1, p2, p3, p4⟩ := processBatch_events det b hg'
    have hint' : (det.processBatch b).2.minPeakInterval = g := by
      rw [(processBatch_params det b).2.2.2, hint]
    have hchain' : List.Chain' (fun e1 e2 => e1.timestamp + g ≤ e2.timestamp)
        (acc ++ (det.processBatch b).1) := by
      refine List.Chain'.append hchain (hint ▸ p1) ?_
      intro e1 he1 e2 he2
      have hm1 : e1 ∈ acc := List.mem_of_getLast?_eq_some he1
      have hm2 : e2 ∈ (det.processBatch b).1 := by
        cases hh : (det.processBatch b).1 with
        | nil => simp [hh] at he2
        | cons y ys =>
          rw [hh] at he2
          simp only [List.head?_cons, Option.mem_def, Option.some.injEq] at he2
          subst he2
          simp [hh]
      have h1 := hle e1 hm1
      have h2 := p2 e2 hm2
      rw [hint] at h2
      linarith
    have hle' : ∀ e ∈ acc ++ (det.processBatch b).1,
        e.timestamp ≤ (det.processBatch b).2.lastPeakTimestamp := by
      intro e he
      rcases List.mem_append.1 he with h | h
      · exact le_trans (hle e h) p4
      · exact p3 e h
    obtain ⟨c1, c2, c3, c4⟩ := ih (acc ++ (det.processBatch b).1) (det.processBatch b).2
      hint' hchain' hle'
    exact ⟨c1, c2, le_trans p4 c3, c4⟩

/-- C10: over every run of a freshly initialized detector — with no
assumption at all on the sample timestamps, monotone or not — the emitted
event timestamps are strictly increasing with consecutive gaps of at least
`min_peak_interval = 0.5`, every emitted timestamp is bounded by the final
`last_peak_timestamp`, and `last_peak_timestamp` never decreases as further
batches arrive. -/
theorem C10_event_monotonicity :
    ∀ (b : ℕ) (t : ℚ) (m : ℕ) (batches : List (List SensorSample)),
      List.Chain' (fun e1 e2 => e1.timestamp + 1 / 2 ≤ e2.timestamp)
          ((SwingDetector.init b t m).runBatches batches).1
      ∧ List.Chain' (fun e1 e2 => e1.timestamp < e2.timestamp)
          ((SwingDetector.init b t m).runBatches batches).1
      ∧ (∀ e ∈ ((SwingDetector.init b t m).runBatches batches).1,
          e.timestamp ≤ ((SwingDetector.init b t m).runBatches batches).2.lastPeakTimestamp)
      ∧ ∀ extra : List (List SensorSample),
          ((SwingDetector.init b t m).runBatches batches).2.lastPeakTimestamp
            ≤ ((SwingDetector.init b t m).runBatches (batches ++ extra)).2.lastPeakTimestamp := by
  intro b t m batches
  have hhalf : (0 : ℚ) < 1 / 2 := by norm_num
  have h := runFold_events (1 / 2) hhalf batches [] (SwingDetector.init b t m) rfl
    List.chain'_nil (by simp)
  refine ⟨h.1, ?_, h.2.1, ?_⟩
  · exact h.1.imp fun {e1 e2} hgap => by linarith
  · intro extra
    unfold SwingDetector.runBatches
    rw [List.foldl_append]
    have h2 := runFold_events (1 / 2) hhalf extra
      (((SwingDetector.init b t m).runBatches batches).1)
      (((SwingDetector.init b t m).runBatches batches).2)
      h.2.2.2 h.1 h.2.1
    unfold SwingDetector.runBatches at h2
    exact h2.2.2.1

/-- C10 witness: a concrete run with one accepted event, whose timestamp 2
bounds the final `last_peak_timestamp`. -/
theorem C10_event_monotonicity_witness :
    (2 : ℚ) ≤ ((SwingDetector.init 4 2 2).runBatches [cexBatchA]).2.lastPeakTimestamp := by
  have h := (C10_event_monotonicity 4 2 2 [cexBatchA]).2.2.1
  have hmem : mkPeak cexBatchA 2 ∈ ((SwingDetector.init 4 2 2).runBatches [cexBatchA]).1 := by
    decide
  exact h _ hmem

/-! ### Claim C1: the peak-detection procedure

Stage A below proves that the `_local_maxima_1d` scan returns exactly the
midpoints of the maximal equal-magnitude runs that are strictly higher than
both adjacent values; stage B proves that the kill loop of
`_select_by_peak_distance` is the greedy descending-magnitude acceptance; the
counterexample shows the claim's candidate notion (`≥` both neighbours,
earlier index on ties) disagrees with the code. -/

theorem aheadIdx_le (x : List ℚ) (iMax v : ℕ) :
    ∀ k, k ≤ iMax → aheadIdx x iMax v k ≤ iMax := by
  suffices h : ∀ n k, iMax - k ≤ n → k ≤ iMax → aheadIdx x iMax v k ≤ iMax by
    intro k hk
    exact h (iMax - k) k le_rfl hk
  intro n
  induction n with
  | zero =>
    intro k h hk
    rw [aheadIdx_rec, if_neg]
    · exact hk
    · intro hc
      omega
  | succ n ih =>
    intro k h hk
    rw [aheadIdx_rec]
    split
    · rename_i hc
      exact ih (k + 1) (by omega) (by omega)
    · exact hk

theorem aheadIdx_run (x : List ℚ) (iMax v : ℕ) :
    ∀ k j, k ≤ j → j < aheadIdx x iMax v k → x.getD j 0 = x.getD v 0 := by
  suffices h : ∀ n k, iMax - k ≤ n →
      ∀ j, k ≤ j → j < aheadIdx x iMax v k → x.getD j 0 = x.getD v 0 by
    intro k j h1 h2
    exact h (iMax - k) k le_rfl j h1 h2
  intro n
  induction n with
  | zero =>
    intro k h j h1 h2
    rw [aheadIdx_rec, if_neg (by intro hc; omega)] at h2
    omega
  | succ n ih =>
    intro k h j h1 h2
    rw [aheadIdx_rec] at h2
    by_cases hc : k < iMax ∧ x.getD k 0 = x.getD v 0
    · rw [if_pos hc] at h2
      rcases Nat.eq_or_lt_of_le h1 with rfl | hlt
      · exact hc.2
      · exact ih (k + 1) (by omega) j (by omega) h2
    · rw [if_neg hc] at h2
      omega

theorem aheadIdx_stop (x : List ℚ) (iMax v : ℕ) :
    ∀ k, ¬ (aheadIdx x iMax v k < iMax ∧ x.getD (aheadIdx x iMax v k) 0 = x.getD v 0) := by
  suffices h : ∀ n k, iMax - k ≤ n →
      ¬ (aheadIdx x iMax v k < iMax ∧ x.getD (aheadIdx x iMax v k) 0 = x.getD v 0) by
    intro k
    exact h (iMax - k) k le_rfl
  intro n
  induction n with
  | zero =>
    intro k h
    rw [aheadIdx_rec, if_neg (by intro hc; omega)]
    intro hc
    omega
  | succ n ih =>
    intro k h
    rw [aheadIdx_rec]
    by_cases hc : k < iMax ∧ x.getD k 0 = x.getD v 0
    · rw [if_pos hc]
      exact ih (k + 1) (by omega)
    · rw [if_neg hc]
      exact hc

/-- Stage A membership: the scan from position `i ≥ 1` emits exactly the
midpoints of the strictly-bounded plateaus whose left edge is at least `i`. -/
theorem lm1dGo_mem (x : List ℚ) :
    ∀ i, 1 ≤ i → ∀ m,
      (m ∈ lm1dGo x (x.length - 1) i ↔ ∃ l r, i ≤ l ∧ IsPlateau x l r ∧ m = (l + r) / 2) := by
  suffices H : ∀ n i, x.length - 1 - i ≤ n → 1 ≤ i → ∀ m,
      (m ∈ lm1dGo x (x.length - 1) i ↔ ∃ l r, i ≤ l ∧ IsPlateau x l r ∧ m = (l + r) / 2) by
    intro i hi m
    exact H (x.length - 1 - i) i le_rfl hi m
  intro n
  induction n with
  | zero =>
    intro i h hi m
    rw [lm1dGo_rec, if_neg (by omega)]
    simp only [List.not_mem_nil, false_iff]
    rintro ⟨l, r, hil, ⟨h1, h2, h3, _⟩, _⟩
    omega
  | succ n ih =>
    intro i h hi m
    by_cases hlt : i < x.length - 1
    · rw [lm1dGo_rec, if_pos hlt]
      by_cases hrise : x.getD (i - 1) 0 < x.getD i 0
      · rw [if_pos hrise]
        have hA_ge : i + 1 ≤ aheadIdx x (x.length - 1) i (i + 1) :=
          aheadIdx_ge x (x.length - 1) i (i + 1)
        have hA_le : aheadIdx x (x.length - 1) i (i + 1) ≤ x.length - 1 :=
          aheadIdx_le x (x.length - 1) i (i + 1) (by omega)
        have hrun : ∀ j, i ≤ j → j < aheadIdx x (x.length - 1) i (i + 1) →
            x.getD j 0 = x.getD i 0 := by
          intro j h1 h2
          rcases Nat.eq_or_lt_of_le h1 with rfl | hlt'
          · rfl
          · exact aheadIdx_run x (x.length - 1) i (i + 1) j (by omega) h2
        have hstop := aheadIdx_stop x (x.length - 1) i (i + 1)
        by_cases hfall :
            x.getD (aheadIdx x (x.length - 1) i (i + 1)) 0 < x.getD i 0
        · rw [if_pos hfall]
          simp only [List.mem_cons]
          constructor
          · rintro (rfl | hmem)
            · refine ⟨i, aheadIdx x (x.length - 1) i (i + 1) - 1, le_rfl, ?_, rfl⟩
              refine ⟨hi, by omega, by omega, ?_, hrise, ?_⟩
              · intro j hj1 hj2
                exact hrun j hj2 (by omega)
              · rw [show aheadIdx x (x.length - 1) i (i + 1) - 1 + 1
                    = aheadIdx x (x.length - 1) i (i + 1) from by omega]
                exact hfall
            · obtain ⟨l, r, hl, hP, hm⟩ :=
                (ih (aheadIdx x (x.length - 1) i (i + 1) + 1) (by omega) (by omega) m).1 hmem
              exact ⟨l, r, by omega, hP, hm⟩
          · rintro ⟨l, r, hil, hP, hm⟩
            obtain ⟨h1, h2, h3, hrun_lr, hedge_l, hedge_r⟩ := hP
            rcases Nat.eq_or_lt_of_le hil with rfl | hl_gt
            · -- the plateau starting at i is exactly the scanned one
              have hr : r = aheadIdx x (x.length - 1) i (i + 1) - 1 := by
                by_contra hne
                rcases Nat.lt_or_ge r (aheadIdx x (x.length - 1) i (i + 1) - 1) with hlt' | hge
                · have hx : x.getD (r + 1) 0 = x.getD i 0 :=
                    hrun (r + 1) (by omega) (by omega)
                  exact absurd hx (by intro hx'; exact absurd hx' (ne_of_lt hedge_r))
                · have hge' : aheadIdx x (x.length - 1) i (i + 1) ≤ r := by omega
                  have hx : x.getD (aheadIdx x (x.length - 1) i (i + 1)) 0 = x.getD i 0 :=
                    hrun_lr _ (by omega) (by omega)
                  exact absurd hx (by intro hx'; exact absurd hx' (ne_of_lt hfall))
              exact Or.inl (by rw [hm, hr])
            · -- a later plateau: its left edge is beyond the scanned plateau
              have hl_big : aheadIdx x (x.length - 1) i (i + 1) + 1 ≤ l := by
                by_contra hsmall
                have hl_le : l ≤ aheadIdx x (x.length - 1) i (i + 1) := by omega
                have hxlm1 : x.getD (l - 1) 0 = x.getD i 0 :=
                  hrun (l - 1) (by omega) (by omega)
                rcases Nat.eq_or_lt_of_le hl_le with heq | hlt'
                · rw [hxlm1, heq] at hedge_l
                  exact lt_asymm hedge_l hfall
                · have hxl : x.getD l 0 = x.getD i 0 := hrun l (by omega) hlt'
                  rw [hxlm1, hxl] at hedge_l
                  exact lt_irrefl _ hedge_l
              exact Or.inr
                ((ih (aheadIdx x (x.length - 1) i (i + 1) + 1) (by omega) (by omega) m).2
                  ⟨l, r, hl_big, ⟨h1, h2, h3, hrun_lr, hedge_l, hedge_r⟩, hm⟩)
        · rw [if_neg hfall]
          rw [ih (i + 1) (by omega) (by omega) m]
          constructor
          · rintro ⟨l, r, hl, hP, hm⟩
            exact ⟨l, r, by omega, hP, hm⟩
          · rintro ⟨l, r, hl, hP, hm⟩
            obtain ⟨h1, h2, h3, hrun_lr, hedge_l, hedge_r⟩ := hP
            rcases Nat.eq_or_lt_of_le hl with rfl | hl_gt
            · -- no plateau can start at i when the run is not followed by a fall
              exfalso
              rcases Nat.lt_trichotomy (r + 1) (aheadIdx x (x.length - 1) i (i + 1)) with hc | hc | hc
              · have hx : x.getD (r + 1) 0 = x.getD i 0 := hrun (r + 1) (by omega) hc
                exact absurd hx (by intro hx'; exact absurd hx' (ne_of_lt hedge_r))
              · rw [← hc] at hfall
                exact hfall hedge_r
              · have hA_in : aheadIdx x (x.length - 1) i (i + 1) ≤ r := by omega
                have hx : x.getD (aheadIdx x (x.length - 1) i (i + 1)) 0 = x.getD i 0 :=
                  hrun_lr _ (by omega) (by omega)
                exact hstop ⟨by omega, hx⟩
            · exact ⟨l, r, by omega, ⟨h1, h2, h3, hrun_lr, hedge_l, hedge_r⟩, hm⟩
      · rw [if_neg hrise]
        rw [ih (i + 1) (by omega) (by omega) m]
        constructor
        · rintro ⟨l, r, hl, hP, hm⟩
          exact ⟨l, r, by omega, hP, hm⟩
        · rintro ⟨l, r, hl, hP, hm⟩
          obtain ⟨h1, h2, h3, hrun_lr, hedge_l, hedge_r⟩ := hP
          rcases Nat.eq_or_lt_of_le hl with rfl | hl_gt
          · exact absurd hedge_l hrise
          · exact ⟨l, r, by omega, ⟨h1, h2, h3, hrun_lr, hedge_l, hedge_r⟩, hm⟩
    · rw [lm1dGo_rec, if_neg hlt]
      simp only [List.not_mem_nil, false_iff]
      rintro ⟨l, r, hil, ⟨h1, h2, h3, _⟩, _⟩
      omega

theorem lm1dGo_lower (x : List ℚ) (iMax : ℕ) :
    ∀ n i, iMax - i ≤ n → ∀ m ∈ lm1dGo x iMax i, i ≤ m := by
  intro n
  induction n with
  | zero =>
    intro i h m hm
    rw [lm1dGo_rec, if_neg (by omega)] at hm
    simp at hm
  | succ n ih =>
    intro i h m hm
    rw [lm1dGo_rec] at hm
    by_cases hlt : i < iMax
    · rw [if_pos hlt] at hm
      have hA_ge : i + 1 ≤ aheadIdx x iMax i (i + 1) := aheadIdx_ge x iMax i (i + 1)
      by_cases hrise : x.getD (i - 1) 0 < x.getD i 0
      · rw [if_pos hrise] at hm
        by_cases hfall : x.getD (aheadIdx x iMax i (i + 1)) 0 < x.getD i 0
        · rw [if_pos hfall] at hm
          rcases List.mem_cons.1 hm with rfl | hmem
          · omega
          · have := ih (aheadIdx x iMax i (i + 1) + 1) (by omega) m hmem
            omega
        · rw [if_neg hfall] at hm
          have := ih (i + 1) (by omega) m hm
          omega
      · rw [if_neg hrise] at hm
        have := ih (i + 1) (by omega) m hm
        omega
    · rw [if_neg hlt] at hm
      simp at hm

theorem lm1dGo_sorted (x : List ℚ) (iMax : ℕ) :
    ∀ n i, iMax - i ≤ n → (lm1dGo x iMax i).Pairwise (· < ·) := by
  intro n
  induction n with
  | zero =>
    intro i h
    rw [lm1dGo_rec, if_neg (by omega)]
    exact List.Pairwise.nil
  | succ n ih =>
    intro i h
    rw [lm1dGo_rec]
    by_cases hlt : i < iMax
    · rw [if_pos hlt]
      have hA_ge : i + 1 ≤ aheadIdx x iMax i (i + 1) := aheadIdx_ge x iMax i (i + 1)
      by_cases hrise : x.getD (i - 1) 0 < x.getD i 0
      · rw [if_pos hrise]
        by_cases hfall : x.getD (aheadIdx x iMax i (i + 1)) 0 < x.getD i 0
        · rw [if_pos hfall]
          refine List.pairwise_cons.2 ⟨?_, ih (aheadIdx x iMax i (i + 1) + 1) (by omega)⟩
          intro m hm
          have := lm1dGo_lower x iMax n (aheadIdx x iMax i (i + 1) + 1) (by omega) m hm
          omega
        · rw [if_neg hfall]
          exact ih (i + 1) (by omega)
      · rw [if_neg hrise]
        exact ih (i + 1) (by omega)
    · rw [if_neg hlt]
      exact List.Pairwise.nil

theorem localMaxima1d_sorted (x : List ℚ) : (localMaxima1d x).Pairwise (· < ·) :=
  lm1dGo_sorted x (x.length - 1) (x.length - 1 - 1) 1 le_rfl

theorem plateau_r_unique (x : List ℚ) (l r1 r2 : ℕ)
    (h1 : IsPlateau x l r1) (h2 : IsPlateau x l r2) : r1 = r2 := by
  obtain ⟨_, ha2, _, harun, _, haedge⟩ := h1
  obtain ⟨_, hb2, _, hbrun, _, hbedge⟩ := h2
  by_contra hne
  rcases Nat.lt_or_ge r1 r2 with hlt | hge
  · have hx : x.getD (r1 + 1) 0 = x.getD l 0 := hbrun (r1 + 1) (by omega) (by omega)
    rw [hx] at haedge
    exact lt_irrefl _ haedge
  · have hlt : r2 < r1 := by omega
    have hx : x.getD (r2 + 1) 0 = x.getD l 0 := harun (r2 + 1) (by omega) (by omega)
    rw [hx] at hbedge
    exact lt_irrefl _ hbedge

theorem plateau_disjoint (x : List ℚ) (l1 r1 l2 r2 : ℕ)
    (h1 : IsPlateau x l1 r1) (h2 : IsPlateau x l2 r2) (hlt : l1 < l2) : r1 < l2 := by
  obtain ⟨_, ha2, _, harun, _, _⟩ := h1
  obtain ⟨_, hb2, _, _, hbedge, _⟩ := h2
  by_contra hge
  have hle : l2 ≤ r1 := by omega
  have hx1 : x.getD (l2 - 1) 0 = x.getD l1 0 := harun (l2 - 1) (by omega) (by omega)
  have hx2 : x.getD l2 0 = x.getD l1 0 := harun l2 (by omega) (by omega)
  rw [hx1, hx2] at hbedge
  exact lt_irrefl _ hbedge

theorem plateauCandidates_mem (x : List ℚ) (m : ℕ) :
    m ∈ plateauCandidates x ↔ ∃ l r, IsPlateau x l r ∧ m = (l + r) / 2 := by
  simp only [plateauCandidates, List.mem_flatMap, List.mem_map, List.mem_filter,
    List.mem_range, decide_eq_true_eq]
  constructor
  · rintro ⟨l, hl, r, ⟨hr, hP⟩, hm⟩
    exact ⟨l, r, hP, hm.symm⟩
  · rintro ⟨l, r, hP, hm⟩
    have hb := hP.2.2.1
    have hlr := hP.2.1
    exact ⟨l, by omega, r, ⟨by omega, hP⟩, hm.symm⟩

theorem plateauCandidates_sorted (x : List ℚ) : (plateauCandidates x).Pairwise (· < ·) := by
  unfold plateauCandidates
  rw [List.pairwise_flatMap]
  constructor
  · intro l _
    have hpf : ((List.range x.length).filter fun r => decide (IsPlateau x l r)).Pairwise
        (· < ·) := (List.pairwise_lt_range x.length).filter _
    rw [List.pairwise_map]
    refine List.Pairwise.imp_of_mem ?_ hpf
    intro r1 r2 h1 h2 hlt
    rw [List.mem_filter] at h1 h2
    have hP1 := of_decide_eq_true h1.2
    have hP2 := of_decide_eq_true h2.2
    exact absurd (plateau_r_unique x l r1 r2 hP1 hP2) (by omega)
  · refine (List.pairwise_lt_range x.length).imp_of_mem ?_
    intro l1 l2 _ _ hlt m1 hm1 m2 hm2
    simp only [List.mem_map, List.mem_filter, List.mem_range, decide_eq_true_eq] at hm1 hm2
    obtain ⟨r1, ⟨_, hP1⟩, hmm1⟩ := hm1
    obtain ⟨r2, ⟨_, hP2⟩, hmm2⟩ := hm2
    have hd := plateau_disjoint x l1 r1 l2 r2 hP1 hP2 hlt
    have hb1 := hP1.2.1
    have hb2 := hP2.2.1
    omega

theorem sorted_lt_ext :
    ∀ (l1 l2 : List ℕ), l1.Pairwise (· < ·) → l2.Pairwise (· < ·) →
      (∀ m, m ∈ l1 ↔ m ∈ l2) → l1 = l2 := by
  intro l1
  induction l1 with
  | nil =>
    intro l2 _ _ hmem
    cases l2 with
    | nil => rfl
    | cons b t2 => exact absurd ((hmem b).2 (List.mem_cons_self b t2)) (List.not_mem_nil b)
  | cons a t1 ih =>
    intro l2 hp1 hp2 hmem
    cases l2 with
    | nil => exact absurd ((hmem a).1 (List.mem_cons_self a t1)) (List.not_mem_nil a)
    | cons b t2 =>
      obtain ⟨ha1, hpt1⟩ := List.pairwise_cons.1 hp1
      obtain ⟨hb2, hpt2⟩ := List.pairwise_cons.1 hp2
      have hab : a = b := by
        rcases List.mem_cons.1 ((hmem a).1 (List.mem_cons_self a t1)) with h | h
        · exact h
        · rcases List.mem_cons.1 ((hmem b).2 (List.mem_cons_self b t2)) with h' | h'
          · exact h'.symm
          · have := ha1 b h'
            have := hb2 a h
            omega
      subst hab
      have htail : ∀ m, m ∈ t1 ↔ m ∈ t2 := by
        intro m
        constructor
        · intro hm
          rcases List.mem_cons.1 ((hmem m).1 (List.mem_cons_of_mem a hm)) with h | h
          · exact absurd h (by have := ha1 m hm; omega)
          · exact h
        · intro hm
          rcases List.mem_cons.1 ((hmem m).2 (List.mem_cons_of_mem a hm)) with h | h
          · exact absurd h (by have := hb2 m hm; omega)
          · exact h
      rw [ih t2 hpt1 hpt2 htail]

/-- Stage A: the `_local_maxima_1d` scan equals the declarative list of
plateau midpoints. -/
theorem localMaxima1d_eq_plateauCandidates (x : List ℚ) :
    localMaxima1d x = plateauCandidates x := by
  refine sorted_lt_ext _ _ (localMaxima1d_sorted x) (plateauCandidates_sorted x) ?_
  intro m
  rw [show localMaxima1d x = lm1dGo x (x.length - 1) 1 from rfl]
  rw [lm1dGo_mem x 1 le_rfl m, plateauCandidates_mem x m]
  constructor
  · rintro ⟨l, r, _, hP, hm⟩
    exact ⟨l, r, hP, hm⟩
  · rintro ⟨l, r, hP, hm⟩
    exact ⟨l, r, hP.1, hP, hm⟩

/-! ### Stage B: the `_select_by_peak_distance` kill loop is the greedy
descending-magnitude acceptance. -/

theorem getD_eq_getElem_nat (l : List ℕ) (i : ℕ) (h : i < l.length) :
    l.getD i 0 = l[i] := by
  simp [List.getD, List.getElem?_eq_getElem h]

theorem getD_mono_of_pairwise_lt (P : List ℕ) (hP : P.Pairwise (· < ·))
    (i k : ℕ) (hik : i ≤ k) (hk : k < P.length) : P.getD i 0 ≤ P.getD k 0 := by
  rcases Nat.eq_or_lt_of_le hik with rfl | hlt
  · exact le_rfl
  · rw [getD_eq_getElem_nat P i (by omega), getD_eq_getElem_nat P k hk]
    exact le_of_lt (List.pairwise_iff_getElem.1 hP i k (by omega) hk hlt)

theorem getD_strict_mono_of_pairwise_lt (P : List ℕ) (hP : P.Pairwise (· < ·))
    (i k : ℕ) (hik : i < k) (hk : k < P.length) : P.getD i 0 < P.getD k 0 := by
  rw [getD_eq_getElem_nat P i (by omega), getD_eq_getElem_nat P k hk]
  exact List.pairwise_iff_getElem.1 hP i k (by omega) hk hik

theorem getD_map_rat (g : ℕ → ℚ) (l : List ℕ) (i : ℕ) (h : i < l.length) :
    (l.map g).getD i 0 = g (l.getD i 0) := by
  simp [List.getD, List.getElem?_map, List.getElem?_eq_getElem h]

theorem getD_set_bool (l : List Bool) (i : ℕ) (b : Bool) (m : ℕ) (h : i < l.length) :
    (l.set i b).getD m false = if m = i then b else l.getD m false := by
  by_cases hm : m = i
  · subst hm
    simp [List.getD, List.getElem?_set_self h]
  · simp [List.getD, List.getElem?_set_ne (by omega : i ≠ m)]
    rw [if_neg hm]

theorem getD_replicate_bool (n : ℕ) (m : ℕ) (hm : m < n) :
    (List.replicate n true).getD m false = true := by
  simp [List.getD, List.getElem?_replicate, hm]

theorem killLeft_length (peaks : List ℕ) (dd : ℤ) (j : ℕ) :
    ∀ c keep, (killLeft peaks dd j c keep).length = keep.length := by
  intro c
  induction c with
  | zero => intro keep; rfl
  | succ c ih =>
    intro keep
    simp only [killLeft]
    split
    · rw [ih]
      simp
    · rfl

theorem killLeft_false_mono (peaks : List ℕ) (dd : ℤ) (j : ℕ) :
    ∀ c keep m, keep.getD m false = false → (killLeft peaks dd j c keep).getD m false = false := by
  intro c
  induction c with
  | zero => intro keep m h; exact h
  | succ c ih =>
    intro keep m h
    simp only [killLeft]
    split
    · refine ih _ m ?_
      by_cases hlen : c < keep.length
      · rw [getD_set_bool _ _ _ _ hlen]
        split
        · rfl
        · exact h
      · rw [List.set_eq_of_length_le (by omega)]
        exact h
    · exact h

theorem killLeft_spec (peaks : List ℕ) (dd : ℤ) (j : ℕ) :
    ∀ c keep, c ≤ keep.length →
      (∀ k1 k2, k1 ≤ k2 → k2 < c →
        (peaks.getD j 0 : ℤ) - peaks.getD k1 0 < dd →
        (peaks.getD j 0 : ℤ) - peaks.getD k2 0 < dd) →
      ∀ m, (killLeft peaks dd j c keep).getD m false
        = if m < c ∧ (peaks.getD j 0 : ℤ) - peaks.getD m 0 < dd then false
          else keep.getD m false := by
  intro c
  induction c with
  | zero =>
    intro keep _ _ m
    rw [if_neg (by omega)]
    rfl
  | succ c ih =>
    intro keep hlen hup m
    simp only [killLeft]
    by_cases hc : (peaks.getD j 0 : ℤ) - peaks.getD c 0 < dd
    · rw [if_pos hc]
      rw [ih (keep.set c false) (by simp; omega)
        (fun k1 k2 h1 h2 => hup k1 k2 h1 (by omega)) m]
      rw [getD_set_bool _ _ _ _ (by omega)]
      by_cases hm : m = c
      · subst hm
        split_ifs <;> first | rfl | omega
      · split_ifs <;> first | rfl | omega
    · rw [if_neg hc]
      rw [if_neg (by
        rintro ⟨h1, h2⟩
        exact hc (hup m c (by omega) (by omega) h2))]

theorem killRightF_length (peaks : List ℕ) (dd : ℤ) (j n : ℕ) :
    ∀ fuel k keep, (killRightF peaks dd j n fuel k keep).length = keep.length := by
  intro fuel
  induction fuel with
  | zero => intro k keep; rfl
  | succ fuel ih =>
    intro k keep
    simp only [killRightF]
    split
    · split
      · rw [ih]
        simp
      · rfl
    · rfl

theorem killRight_length (peaks : List ℕ) (dd : ℤ) (j n k : ℕ) (keep : List Bool) :
    (killRight peaks dd j n k keep).length = keep.length :=
  killRightF_length peaks dd j n (n - k) k keep

theorem killRightF_false_mono (peaks : List ℕ) (dd : ℤ) (j n : ℕ) :
    ∀ fuel k keep m, keep.getD m false = false →
      (killRightF peaks dd j n fuel k keep).getD m false = false := by
  intro fuel
  induction fuel with
  | zero => intro k keep m h; exact h
  | succ fuel ih =>
    intro k keep m h
    simp only [killRightF]
    split
    · split
      · refine ih _ _ m ?_
        by_cases hlen : k < keep.length
        · rw [getD_set_bool _ _ _ _ hlen]
          split
          · rfl
          · exact h
        · rw [List.set_eq_of_length_le (by omega)]
          exact h
      · exact h
    · exact h

theorem killRight_false_mono (peaks : List ℕ) (dd : ℤ) (j n k : ℕ) (keep : List Bool) (m : ℕ)
    (h : keep.getD m false = false) : (killRight peaks dd j n k keep).getD m false = false :=
  killRightF_false_mono peaks dd j n (n - k) k keep m h

theorem killRight_spec (peaks : List ℕ) (dd : ℤ) (j n : ℕ)
    (hdown : ∀ k1 k2, k1 ≤ k2 → k2 < n →
      (peaks.getD k2 0 : ℤ) - peaks.getD j 0 < dd →
      (peaks.getD k1 0 : ℤ) - peaks.getD j 0 < dd) :
    ∀ t s keep, n - s ≤ t → n ≤ keep.length →
      ∀ m, (killRight peaks dd j n s keep).getD m false
        = if s ≤ m ∧ m < n ∧ (peaks.getD m 0 : ℤ) - peaks.getD j 0 < dd then false
          else keep.getD m false := by
  intro t
  induction t with
  | zero =>
    intro s keep hf hlen m
    rw [killRight_rec, if_neg (by omega), if_neg (by omega)]
  | succ t ih =>
    intro s keep hf hlen m
    rw [killRight_rec]
    by_cases hs : s < n
    · rw [if_pos hs]
      by_cases hc : (peaks.getD s 0 : ℤ) - peaks.getD j 0 < dd
      · rw [if_pos hc]
        rw [ih (s + 1) (keep.set s false) (by omega) (by simp; omega) m]
        rw [getD_set_bool _ _ _ _ (by omega)]
        by_cases hm : m = s
        · subst hm
          split_ifs <;> first | rfl | omega
        · split_ifs <;> first | rfl | omega
      · rw [if_neg hc]
        rw [if_neg (by
          rintro ⟨h1, h2, h3⟩
          exact hc (hdown s m h1 h2 h3))]
    · rw [if_neg hs, if_neg (by omega)]

theorem natDist_comm (p q : ℕ) : natDist p q = natDist q p := by
  simp [natDist, Nat.max_comm, Nat.min_comm]

/-- The pointwise effect of one `killStep` on a still-kept index `j`:
exactly the indices other than `j` whose peak position lies within
`distance` of `j`'s peak position are cleared. -/
theorem killStep_spec (P : List ℕ) (d : ℕ) (hP : P.Pairwise (· < ·)) (j : ℕ)
    (hj : j < P.length) (keep : List Bool) (hlen : keep.length = P.length)
    (hkept : keep.getD j false = true) (m : ℕ) :
    (killStep P d keep j).getD m false
      = if m < P.length ∧ m ≠ j ∧ natDist (P.getD m 0) (P.getD j 0) < d then false
        else keep.getD m false := by
  unfold killStep
  rw [if_pos hkept]
  have hup : ∀ k1 k2, k1 ≤ k2 → k2 < j →
      (P.getD j 0 : ℤ) - P.getD k1 0 < (d : ℤ) →
      (P.getD j 0 : ℤ) - P.getD k2 0 < (d : ℤ) := by
    intro k1 k2 h1 h2 h3
    have := getD_mono_of_pairwise_lt P hP k1 k2 h1 (by omega)
    omega
  have hdown : ∀ k1 k2, k1 ≤ k2 → k2 < P.length →
      (P.getD k2 0 : ℤ) - P.getD j 0 < (d : ℤ) →
      (P.getD k1 0 : ℤ) - P.getD j 0 < (d : ℤ) := by
    intro k1 k2 h1 h2 h3
    have := getD_mono_of_pairwise_lt P hP k1 k2 h1 h2
    omega
  rw [killRight_spec P (d : ℤ) j P.length hdown (P.length - (j + 1)) (j + 1) _ le_rfl
    (by rw [killLeft_length]; omega) m]
  rw [killLeft_spec P (d : ℤ) j j keep (by omega) (fun k1 k2 h1 h2 => hup k1 k2 h1 h2) m]
  rcases Nat.lt_trichotomy m j with hlt | heq | hgt
  · have hpm : P.getD m 0 < P.getD j 0 := getD_strict_mono_of_pairwise_lt P hP m j hlt hj
    have hnd : natDist (P.getD m 0) (P.getD j 0) = P.getD j 0 - P.getD m 0 := by
      simp only [natDist]
      omega
    split_ifs <;> first | rfl | omega
  · subst heq
    split_ifs <;> first | rfl | omega
  · rcases Nat.lt_or_ge m P.length with hmn | hmn
    · have hpm : P.getD j 0 < P.getD m 0 := getD_strict_mono_of_pairwise_lt P hP j m hgt hmn
      have hnd : natDist (P.getD m 0) (P.getD j 0) = P.getD m 0 - P.getD j 0 := by
        simp only [natDist]
        omega
      split_ifs <;> first | rfl | omega
    · split_ifs <;> first | rfl | omega

theorem killStep_length (P : List ℕ) (d : ℕ) (keep : List Bool) (j : ℕ) :
    (killStep P d keep j).length = keep.length := by
  unfold killStep
  split
  · rw [killRight_length, killLeft_length]
  · rfl

theorem killStep_false_mono (P : List ℕ) (d : ℕ) (keep : List Bool) (j m : ℕ)
    (h : keep.getD m false = false) : (killStep P d keep j).getD m false = false := by
  unfold killStep
  split
  · exact killRight_false_mono _ _ _ _ _ _ m (killLeft_false_mono _ _ _ _ _ m h)
  · exact h

theorem killStep_fold_false_mono (P : List ℕ) (d : ℕ) :
    ∀ (os : List ℕ) (keep : List Bool) (m : ℕ), keep.getD m false = false →
      (os.foldl (killStep P d) keep).getD m false = false := by
  intro os
  induction os with
  | nil => intro keep m h; exact h
  | cons j os ih =>
    intro keep m h
    exact ih _ m (killStep_false_mono P d keep j m h)

/-- The central correspondence: folding the `_select_by_peak_distance` kill
step over any processing order, next to folding the greedy acceptance step
over the same order, keeps the two in lockstep — an index stays kept exactly
when it is not within `distance` of an accepted one, and every processed
index that survives is accepted. -/
theorem kill_fold_corr (P : List ℕ) (d : ℕ) (hP : P.Pairwise (· < ·)) :
    ∀ (os : List ℕ) (keep : List Bool) (acc : List ℕ),
      os.Nodup →
      (∀ j ∈ os, j < P.length) →
      keep.length = P.length →
      (∀ a ∈ acc, a < P.length) →
      acc.Nodup →
      (∀ a ∈ acc, a ∉ os) →
      (∀ a b, a ∈ acc → b ∈ acc → a ≠ b →
        ¬ natDist (P.getD a 0) (P.getD b 0) < d) →
      (∀ m, m < P.length →
        (keep.getD m false = true ↔
          ¬ ∃ a ∈ acc, a ≠ m ∧ natDist (P.getD a 0) (P.getD m 0) < d)) →
      (os.foldl (killStep P d) keep).length = P.length
      ∧ (∀ a ∈ os.foldl (greedyIdxStep P d) acc, a < P.length)
      ∧ (os.foldl (greedyIdxStep P d) acc).Nodup
      ∧ (∀ a b, a ∈ os.foldl (greedyIdxStep P d) acc → b ∈ os.foldl (greedyIdxStep P d) acc →
          a ≠ b → ¬ natDist (P.getD a 0) (P.getD b 0) < d)
      ∧ (∀ m, m < P.length →
          ((os.foldl (killStep P d) keep).getD m false = true ↔
            ¬ ∃ a ∈ os.foldl (greedyIdxStep P d) acc, a ≠ m ∧
              natDist (P.getD a 0) (P.getD m 0) < d))
      ∧ (∀ a ∈ acc, a ∈ os.foldl (greedyIdxStep P d) acc)
      ∧ (∀ m ∈ os, (os.foldl (killStep P d) keep).getD m false = true →
          m ∈ os.foldl (greedyIdxStep P d) acc) := by
  intro os
  induction os with
  | nil =>
    intro keep acc _ _ hlen hbound hnd hdisj hfar hiff
    exact ⟨hlen, hbound, hnd, hfar, hiff, fun a ha => ha, fun m hm => absurd hm (by simp)⟩
  | cons j os ih =>
    intro keep acc hnodup hjs hlen hbound hnd hdisj hfar hiff
    obtain ⟨hjnotos, hnodup'⟩ := List.nodup_cons.1 hnodup
    have hj : j < P.length := hjs j (List.mem_cons_self j os)
    have hjnacc : j ∉ acc := by
      intro hjin
      exact hdisj j hjin (List.mem_cons_self j os)
    simp only [List.foldl_cons]
    by_cases hkj : keep.getD j false = true
    · -- array index j is still kept: scipy kills its neighbourhood,
      -- the greedy procedure accepts it
      have htest : acc.all (fun a => decide (d ≤ natDist (P.getD a 0) (P.getD j 0))) = true := by
        rw [List.all_eq_true]
        intro a ha
        rw [decide_eq_true_eq]
        have hnex := (hiff j hj).1 hkj
        by_contra hlt
        exact hnex ⟨a, ha, fun he => hjnacc (he ▸ ha), by omega⟩
      have hacc1 : greedyIdxStep P d acc j = acc ++ [j] := by
        unfold greedyIdxStep
        rw [if_pos htest]
      have hlen1 : (killStep P d keep j).length = P.length := by
        rw [killStep_length]
        exact hlen
      have hspec := killStep_spec P d hP j hj keep hlen hkj
      rw [hacc1]
      have hb' : ∀ a ∈ acc ++ [j], a < P.length := by
        intro a ha
        rcases List.mem_append.1 ha with h | h
        · exact hbound a h
        · simp only [List.mem_singleton] at h
          exact h ▸ hj
      have hn' : (acc ++ [j]).Nodup := by
        rw [List.nodup_append]
        exact ⟨hnd, List.nodup_singleton j, fun a ha hb => by
          simp only [List.mem_singleton] at hb
          exact hjnacc (hb ▸ ha)⟩
      have hd' : ∀ a ∈ acc ++ [j], a ∉ os := by
        intro a ha
        rcases List.mem_append.1 ha with h | h
        · exact fun hin => hdisj a h (List.mem_cons_of_mem j hin)
        · simp only [List.mem_singleton] at h
          exact h ▸ hjnotos
      have hf' : ∀ a b, a ∈ acc ++ [j] → b ∈ acc ++ [j] → a ≠ b →
          ¬ natDist (P.getD a 0) (P.getD b 0) < d := by
        intro a b ha hb hne
        rcases List.mem_append.1 ha with h1 | h1 <;> rcases List.mem_append.1 hb with h2 | h2
        · exact hfar a b h1 h2 hne
        · simp only [List.mem_singleton] at h2
          subst h2
          have := (List.all_eq_true.1 htest) a h1
          rw [decide_eq_true_eq] at this
          omega
        · simp only [List.mem_singleton] at h1
          subst h1
          have := (List.all_eq_true.1 htest) b h2
          rw [decide_eq_true_eq] at this
          rw [natDist_comm]
          omega
        · simp only [List.mem_singleton] at h1 h2
          subst h1
          subst h2
          exact absurd rfl hne
      have hi' : ∀ m, m < P.length →
          ((killStep P d keep j).getD m false = true ↔
            ¬ ∃ a ∈ acc ++ [j], a ≠ m ∧ natDist (P.getD a 0) (P.getD m 0) < d) := by
        intro m hm
        rw [hspec m]
        by_cases hck : m < P.length ∧ m ≠ j ∧ natDist (P.getD m 0) (P.getD j 0) < d
        · rw [if_pos hck]
          exact iff_of_false Bool.false_ne_true (not_not_intro
            ⟨j, List.mem_append.2 (Or.inr (List.mem_singleton.2 rfl)),
              fun he => hck.2.1 he.symm, by rw [natDist_comm]; exact hck.2.2⟩)
        · rw [if_neg hck]
          rw [hiff m hm]
          constructor
          · intro hnex ⟨a, ha, hne, hlt⟩
            rcases List.mem_append.1 ha with h | h
            · exact hnex ⟨a, h, hne, hlt⟩
            · simp only [List.mem_singleton] at h
              subst h
              exact hck ⟨hm, fun he => hne he.symm, by rw [natDist_comm]; exact hlt⟩
          · intro hnex ⟨a, ha, hne, hlt⟩
            exact hnex ⟨a, List.mem_append.2 (Or.inl ha), hne, hlt⟩
      obtain ⟨c1, c2, c3, c4, c5, c6, c7⟩ := ih (killStep P d keep j) (acc ++ [j]) hnodup'
        (fun a ha => hjs a (List.mem_cons_of_mem j ha)) hlen1 hb' hn' hd' hf' hi'
      refine ⟨c1, c2, c3, c4, c5, ?_, ?_⟩
      · intro a ha
        exact c6 a (List.mem_append.2 (Or.inl ha))
      · intro m hmem hkept
        rcases List.mem_cons.1 hmem with rfl | hmem'
        · exact c6 m (List.mem_append.2 (Or.inr (List.mem_singleton.2 rfl)))
        · exact c7 m hmem' hkept
    · -- array index j is already removed: scipy skips it, and the greedy
      -- test fails because an accepted peak lies within distance
      have hkj' : keep.getD j false = false := by
        cases h : keep.getD j false
        · rfl
        · exact absurd h hkj
      have htest : acc.all (fun a => decide (d ≤ natDist (P.getD a 0) (P.getD j 0))) = false := by
        have hex : ∃ a ∈ acc, a ≠ j ∧ natDist (P.getD a 0) (P.getD j 0) < d := by
          by_contra hnex
          exact hkj ((hiff j hj).2 hnex)
        obtain ⟨a, ha, _, hlt⟩ := hex
        rw [List.all_eq_false]
        exact ⟨a, ha, fun hc => absurd (of_decide_eq_true hc) (not_le.2 hlt)⟩
      have hacc1 : greedyIdxStep P d acc j = acc := by
        unfold greedyIdxStep
        rw [if_neg (by rw [htest]; exact Bool.false_ne_true)]
      have hkeep1 : killStep P d keep j = keep := by
        unfold killStep
        rw [if_neg (by rw [hkj']; exact Bool.false_ne_true)]
      rw [hacc1, hkeep1]
      obtain ⟨c1, c2, c3, c4, c5, c6, c7⟩ := ih keep acc hnodup'
        (fun a ha => hjs a (List.mem_cons_of_mem j ha)) hlen hbound hnd
        (fun a ha hin => hdisj a ha (List.mem_cons_of_mem j hin)) hfar hiff
      refine ⟨c1, c2, c3, c4, c5, c6, ?_⟩
      intro m hmem hkept
      rcases List.mem_cons.1 hmem with rfl | hmem'
      · exact absurd hkept (by
          rw [killStep_fold_false_mono P d os keep m hkj']
          exact Bool.false_ne_true)
      · exact c7 m hmem' hkept


/-! ### Stage B5: the argsort order maps onto the specified magnitude order -/


theorem map_getD_range (P : List ℕ) :
    (List.range P.length).map (fun i => P.getD i 0) = P := by
  refine List.ext_getElem (by simp) ?_
  intro i h1 h2
  simp only [List.getElem_map, List.getElem_range]
  exact getD_eq_getElem_nat P i h2

theorem priorityOrder_map (x : List ℚ) (P : List ℕ) (hPlt : P.Pairwise (· < ·)) :
    (priorityOrder (P.map fun p => x.getD p 0) P.length).map (fun i => P.getD i 0)
      = P.insertionSort (magDescLe x true) := by
  have hps : ∀ i < P.length,
      (P.map fun p => x.getD p 0).getD i 0 = x.getD (P.getD i 0) 0 := by
    intro i hi
    exact getD_map_rat (fun p => x.getD p 0) P i hi
  set ps := P.map fun p => x.getD p 0 with hps_def
  set L := (List.range P.length).insertionSort (prioLe ps) with hL
  have hmemL : ∀ i ∈ L, i < P.length := by
    intro i hi
    exact List.mem_range.1 ((List.perm_insertionSort (prioLe ps) (List.range P.length)).mem_iff.1 hi)
  have hsortL : L.Pairwise (prioLe ps) := List.sorted_insertionSort (prioLe ps) (List.range P.length)
  have hrev : L.reverse.Pairwise (fun a b => prioLe ps b a) := by
    rw [List.pairwise_reverse]
    exact hsortL
  have hsorted1 : (L.reverse.map fun i => P.getD i 0).Pairwise (magDescLe x true) := by
    rw [List.pairwise_map]
    refine hrev.imp_of_mem ?_
    intro a b ha hb hle
    have haP : a < P.length := hmemL a (List.mem_reverse.1 ha)
    have hbP : b < P.length := hmemL b (List.mem_reverse.1 hb)
    rcases hle with h | ⟨h, hi⟩
    · rw [hps b hbP, hps a haP] at h
      exact Or.inl h
    · rw [hps b hbP, hps a haP] at h
      exact Or.inr ⟨h.symm, by simpa using getD_mono_of_pairwise_lt P hPlt b a hi haP⟩
  have hperm1 : List.Perm (L.reverse.map fun i => P.getD i 0) P := by
    have h1 : List.Perm L.reverse (List.range P.length) :=
      (List.reverse_perm L).trans (List.perm_insertionSort (prioLe ps) (List.range P.length))
    have h2 := h1.map fun i => P.getD i 0
    rw [map_getD_range P] at h2
    exact h2
  have hperm2 : List.Perm (P.insertionSort (magDescLe x true)) P :=
    List.perm_insertionSort (magDescLe x true) P
  have hsorted2 : (P.insertionSort (magDescLe x true)).Pairwise (magDescLe x true) :=
    List.sorted_insertionSort (magDescLe x true) P
  exact List.eq_of_perm_of_sorted (hperm1.trans hperm2.symm) hsorted1 hsorted2

/-! ### Stage B6: the greedy fold on array indices maps onto the greedy fold
on peak positions -/

theorem greedyIdxStep_map (P : List ℕ) (d : ℕ) (accI : List ℕ) (j : ℕ) :
    (greedyIdxStep P d accI j).map (fun i => P.getD i 0)
      = (if (accI.map fun i => P.getD i 0).all (fun a => decide (d ≤ natDist a (P.getD j 0)))
         then (accI.map fun i => P.getD i 0) ++ [P.getD j 0]
         else accI.map fun i => P.getD i 0) := by
  rw [List.all_map]
  unfold greedyIdxStep
  have hc : (accI.all ((fun a => decide (d ≤ natDist a (P.getD j 0))) ∘ fun i => P.getD i 0))
      = accI.all fun a => decide (d ≤ natDist (P.getD a 0) (P.getD j 0)) := rfl
  rw [hc]
  by_cases h : accI.all (fun a => decide (d ≤ natDist (P.getD a 0) (P.getD j 0))) = true
  · rw [if_pos h, if_pos h, List.map_append]
    rfl
  · rw [if_neg h, if_neg h]

theorem greedy_fold_map (P : List ℕ) (d : ℕ) :
    ∀ (os accI : List ℕ),
      (os.foldl (greedyIdxStep P d) accI).map (fun i => P.getD i 0)
        = (os.map fun i => P.getD i 0).foldl
            (fun acc c => if acc.all fun a => decide (d ≤ natDist a c) then acc ++ [c] else acc)
            (accI.map fun i => P.getD i 0) := by
  intro os
  induction os with
  | nil =>
    intro accI
    rfl
  | cons j os ih =>
    intro accI
    simp only [List.foldl_cons, List.map_cons]
    rw [ih (greedyIdxStep P d accI j), greedyIdxStep_map P d accI j]

/-! ### Stage B7: scipy distance selection coincides with the greedy
resolution stated over positions -/

theorem selectByPeakDistance_eq (x : List ℚ) (d : ℕ) (P : List ℕ)
    (hPlt : P.Pairwise (· < ·)) :
    selectByPeakDistance P (P.map fun p => x.getD p 0) d = greedySelect x d true P := by
  set ps := P.map fun p => x.getD p 0 with hps_def
  set os := priorityOrder ps P.length with hos_def
  set K := os.foldl (killStep P d) (List.replicate P.length true) with hK_def
  set A := os.foldl (greedyIdxStep P d) [] with hA_def
  have hosperm : List.Perm os (List.range P.length) := by
    rw [hos_def]
    unfold priorityOrder
    exact (List.reverse_perm _).trans (List.perm_insertionSort (prioLe ps) (List.range P.length))
  have hosnodup : os.Nodup := hosperm.nodup_iff.2 (List.nodup_range P.length)
  have hoslt : ∀ j ∈ os, j < P.length := by
    intro j hj
    exact List.mem_range.1 (hosperm.mem_iff.1 hj)
  have hosall : ∀ m, m < P.length → m ∈ os := by
    intro m hm
    exact hosperm.mem_iff.2 (List.mem_range.2 hm)
  obtain ⟨c1, c2, c3, c4, c5, c6, c7⟩ := kill_fold_corr P d hPlt os
    (List.replicate P.length true) [] hosnodup hoslt (by simp)
    (by intro a ha; simp at ha) (List.nodup_nil)
    (by intro a ha; simp at ha)
    (by intro a b ha _ _; simp at ha)
    (by
      intro m hm
      rw [getD_replicate_bool P.length m hm]
      simp)
  have hKA : ∀ m, m < P.length → (K.getD m false = true ↔ m ∈ A) := by
    intro m hm
    constructor
    · intro h
      exact c7 m (hosall m hm) h
    · intro h
      refine (c5 m hm).2 ?_
      rintro ⟨a, ha, hne, hlt⟩
      exact c4 a m ha h hne hlt
  have hfilter : ((List.range P.length).filter fun i => K.getD i false)
      = A.insertionSort (· ≤ ·) := by
    have hnd1 : ((List.range P.length).filter fun i => K.getD i false).Nodup :=
      (List.nodup_range P.length).filter _
    have hnd2 : (A.insertionSort (· ≤ ·)).Nodup :=
      ((List.perm_insertionSort (· ≤ ·) A).nodup_iff).2 c3
    have hmemiff : ∀ a, (a ∈ (List.range P.length).filter fun i => K.getD i false)
        ↔ a ∈ A.insertionSort (· ≤ ·) := by
      intro a
      rw [List.mem_filter, List.mem_range, (List.perm_insertionSort (· ≤ ·) A).mem_iff]
      constructor
      · rintro ⟨hlt, hkeep⟩
        exact (hKA a hlt).1 hkeep
      · intro ha
        exact ⟨c2 a ha, (hKA a (c2 a ha)).2 ha⟩
    have hperm : List.Perm ((List.range P.length).filter fun i => K.getD i false)
        (A.insertionSort (· ≤ ·)) :=
      (List.perm_ext_iff_of_nodup hnd1 hnd2).2 hmemiff
    have hs1 : ((List.range P.length).filter fun i => K.getD i false).Pairwise (· ≤ ·) :=
      ((List.pairwise_lt_range P.length).filter _).imp le_of_lt
    have hs2 : (A.insertionSort (· ≤ ·)).Pairwise (· ≤ ·) :=
      List.sorted_insertionSort (· ≤ ·) A
    exact List.eq_of_perm_of_sorted hperm hs1 hs2
  have hmapsort : ((A.insertionSort (· ≤ ·)).map fun i => P.getD i 0)
      = (A.map fun i => P.getD i 0).insertionSort (· ≤ ·) := by
    have hperm : List.Perm ((A.insertionSort (· ≤ ·)).map fun i => P.getD i 0)
        ((A.map fun i => P.getD i 0).insertionSort (· ≤ ·)) :=
      ((List.perm_insertionSort (· ≤ ·) A).map _).trans
        (List.perm_insertionSort (· ≤ ·) (A.map fun i => P.getD i 0)).symm
    have hs1 : (((A.insertionSort (· ≤ ·)).map fun i => P.getD i 0)).Pairwise (· ≤ ·) := by
      rw [List.pairwise_map]
      refine (List.sorted_insertionSort (· ≤ ·) A).imp_of_mem ?_
      intro a b ha hb hab
      have hb' : b < P.length :=
        c2 b ((List.perm_insertionSort (· ≤ ·) A).mem_iff.1 hb)
      exact getD_mono_of_pairwise_lt P hPlt a b hab hb'
    have hs2 : ((A.map fun i => P.getD i 0).insertionSort (· ≤ ·)).Pairwise (· ≤ ·) :=
      List.sorted_insertionSort (· ≤ ·) (A.map fun i => P.getD i 0)
    exact List.eq_of_perm_of_sorted hperm hs1 hs2
  have hAmap : (A.map fun i => P.getD i 0)
      = (P.insertionSort (magDescLe x true)).foldl
          (fun acc c => if acc.all fun a => decide (d ≤ natDist a c) then acc ++ [c] else acc)
          [] := by
    rw [hA_def, greedy_fold_map P d os []]
    rw [show (os.map fun i => P.getD i 0) = P.insertionSort (magDescLe x true) from
      priorityOrder_map x P hPlt]
    rfl
  show ((List.range P.length).filter fun i => K.getD i false).map (fun i => P.getD i 0)
      = greedySelect x d true P
  rw [hfilter, hmapsort, hAmap]
  rfl

/-- C1: the claim's candidate notion (every interior sample `≥` both
neighbours) and tie rule (earlier index preferred) do not match the code: on
the signal `[0, 3, 3, 3, 0]` with threshold `2` and `min_distance = 2`, the
claimed procedure yields peaks at indices 1 and 3, while `find_peaks` (which
reduces each flat plateau to its midpoint) yields the single peak at index 2. -/
theorem C1_peak_procedure_counterexample :
    claimedPeakProcedure [0, 3, 3, 3, 0] 2 2 ≠ findPeaks [0, 3, 3, 3, 0] 2 2 := by
  decide

/-- C1 (amended): the detection procedure equals, for every signal, threshold
and distance: take the midpoints of maximal plateaus strictly above their
adjacent values, keep those meeting the threshold, scan them in descending
magnitude order with the LATER index preferred on exact ties, accept a
candidate iff no previously accepted candidate lies within `min_distance`
samples, and return the accepted peaks in index order. -/
theorem C1_peak_procedure_amended (x : List ℚ) (t : ℚ) (d : ℕ) :
    amendedPeakProcedure x t d = findPeaks x t d := by
  show greedySelect x d true ((plateauCandidates x).filter fun p => decide (t ≤ x.getD p 0))
      = findPeaks x t d
  unfold findPeaks
  rw [localMaxima1d_eq_plateauCandidates]
  exact (selectByPeakDistance_eq x d
    ((plateauCandidates x).filter fun p => decide (t ≤ x.getD p 0))
    ((plateauCandidates_sorted x).filter _)).symm

end TennisAgent
